import Mathlib

/-!
Shallow embedding of `python/converters/plovasp/proj_group.py` (class
`ProjectorGroup`): band-window selection (`select_bands`), electron counting
(`nelect_window`), block-matrix maps (`get_block_matrix_map`), and the Löwdin
orthogonalization (`orthogonalize_projector_matrix`), together with the
gather/scatter slice assignments performed by `orthogonalize`.

Modelling conventions.

* Band energies, occupation numbers and k-point weights (numpy floats used
  only through comparisons, sums and products) are modelled as `ℚ`, keeping
  every band-selection function computable and decidable.  The complex
  projector algebra is modelled over `ℂ` with Mathlib matrices.
* numpy arrays are modelled as total functions on `ℕ` indices (the python
  code only ever reads them in bounds), except where the code itself builds
  an array (`ib_win`), which is modelled by the nested list it builds.
* `numpy.linalg.eigh` is a numerical oracle.  It is modelled by passing its
  output — a unitary matrix `V` and a real vector `eig` such that
  `P·Pᴴ = V·diag(eig)·Vᴴ` — as explicit arguments; the theorems quantify
  over every output the eigensolver could legitimately return.
* A python `raise`/failed `assert` is modelled with `Except`.
* Two degenerate corners where the python code itself crashes with an
  unrelated error (numpy `max` of an empty eigenvalue array; `NameError` on
  `i2_bl` when a group has no (shell, site) pair at all) are total here; all
  theorems about those functions carry the corresponding non-emptiness
  hypotheses.
-/

open Matrix

namespace ProjGroup

/-! ### select_bands (proj_group.py lines 288-337) -/

/-- One python scanning loop `for ib in range(i, i + fuel): if p(ib): break`:
the first index satisfying `p`, or `none` when the scan is exhausted. -/
def scanFirst (p : ℕ → Bool) : ℕ → ℕ → Option ℕ
  | _, 0 => none
  | i, n + 1 => if p i then some i else scanFirst p (i + 1) n

/-- `ib1` of `select_bands` for one `(k, spin)` pair: the first band index with
energy `≥ emin`.  When no band qualifies the python loop variable keeps its
last value `nband - 1`. -/
def pairIb1 (nband : ℕ) (f : ℕ → ℚ) (emin : ℚ) : ℕ :=
  (scanFirst (fun ib => decide (emin ≤ f ib)) 0 nband).getD (nband - 1)

/-- The stopping index of the second `select_bands` loop: the first index
`≥ ib1` whose energy exceeds `emax`, and `nband` when the loop completes
without a break (the `for…else` branch adds 1 to the loop variable).
The stored `ib2` is this value minus 1. -/
def pairBrk (nband : ℕ) (f : ℕ → ℚ) (emax : ℚ) (i1 : ℕ) : ℕ :=
  (scanFirst (fun ib => decide (emax < f ib)) i1 (nband - i1)).getD nband

/-- The band energies of one `(isp, ik)` pair, as a function of the band index.
`e` is indexed `(ik, ib, isp)` like the `eigvals` array; a pair `p` is
`(isp, ik)`, in the iteration order of the python loops. -/
def bandAt (e : ℕ → ℕ → ℕ → ℚ) (p : ℕ × ℕ) : ℕ → ℚ := fun ib => e p.2 ib p.1

/-- `ib1` for the pair `p = (isp, ik)`. -/
def pIb1 (nband : ℕ) (e : ℕ → ℕ → ℕ → ℚ) (emin : ℚ) (p : ℕ × ℕ) : ℕ :=
  pairIb1 nband (bandAt e p) emin

/-- The stopping index of the second loop for the pair `p = (isp, ik)`. -/
def pBrk (nband : ℕ) (e : ℕ → ℕ → ℕ → ℚ) (emin emax : ℚ) (p : ℕ × ℕ) : ℕ :=
  pairBrk nband (bandAt e p) emax (pIb1 nband e emin p)

/-- `ib2` for the pair `p = (isp, ik)`. -/
def pIb2 (nband : ℕ) (e : ℕ → ℕ → ℕ → ℚ) (emin emax : ℚ) (p : ℕ × ℕ) : ℕ :=
  pBrk nband e emin emax p - 1

/-- The `assert ib1 <= ib2` of `select_bands` fails for the pair `p` exactly
when the second loop breaks at its very first index (`ib2 = ib1 - 1` as
integers, i.e. the stopping index is `≤ ib1`). -/
def pFails (nband : ℕ) (e : ℕ → ℕ → ℕ → ℚ) (emin emax : ℚ) (p : ℕ × ℕ) : Prop :=
  pBrk nband e emin emax p ≤ pIb1 nband e emin p

instance (nband : ℕ) (e : ℕ → ℕ → ℕ → ℚ) (emin emax : ℚ) (p : ℕ × ℕ) :
    Decidable (pFails nband e emin emax p) :=
  inferInstanceAs (Decidable (_ ≤ _))

/-- The two failure modes of `select_bands`: the initial window/spectrum
sanity check, and the per-pair `assert ib1 <= ib2` which reports the
offending k-point. -/
inductive SelectError where
  | windowMismatch
  | emptyWindow (ik : ℕ)
deriving DecidableEq

/-- The successful output of `select_bands`: the `ib_win` array (a list of
rows indexed by `ik`, each a list indexed by `isp` of `(ib1, ib2)` pairs)
and the global `ib_min`, `ib_max`. -/
structure SelOut where
  ib_win : List (List (ℕ × ℕ))
  ib_min : ℕ
  ib_max : ℕ
deriving DecidableEq

/-- Write `v` at position `(ik, isp)` of the `ib_win` array. -/
def setWin (w : List (List (ℕ × ℕ))) (ik isp : ℕ) (v : ℕ × ℕ) :
    List (List (ℕ × ℕ)) :=
  w.set ik ((w.getD ik []).set isp v)

/-- Read position `(ik, isp)` of the `ib_win` array. -/
def getWin (w : List (List (ℕ × ℕ))) (ik isp : ℕ) : ℕ × ℕ :=
  (w.getD ik []).getD isp (0, 0)

/-- The body of the nested `for isp … for ik …` loops of `select_bands`:
for each pair compute `ib1` and the stopping index, fail like the python
`assert` when the window is empty there, otherwise store `(ib1, ib2)` and
update the running `ib_min`/`ib_max`. -/
def scanPairs (nband : ℕ) (e : ℕ → ℕ → ℕ → ℚ) (emin emax : ℚ) :
    List (ℕ × ℕ) → SelOut → Except SelectError SelOut
  | [], st => .ok st
  | p :: rest, st =>
    if pBrk nband e emin emax p ≤ pIb1 nband e emin p then
      .error (.emptyWindow p.2)
    else
      scanPairs nband e emin emax rest
        ⟨setWin st.ib_win p.2 p.1 (pIb1 nband e emin p, pIb2 nband e emin emax p),
          min st.ib_min (pIb1 nband e emin p),
          max st.ib_max (pIb2 nband e emin emax p)⟩

/-- All entries of the `eigvals` array, for the global `max()`/`min()`. -/
def allEigs (nk nband ns : ℕ) (e : ℕ → ℕ → ℕ → ℚ) : List ℚ :=
  (List.range nk).flatMap fun ik =>
    (List.range nband).flatMap fun ib =>
      (List.range ns).map fun isp => e ik ib isp

/-- `eigvals.max()` (the dimensions are positive whenever it is used). -/
def eigMax (nk nband ns : ℕ) (e : ℕ → ℕ → ℕ → ℚ) : ℚ :=
  (allEigs nk nband ns e).foldr max (e 0 0 0)

/-- `eigvals.min()`. -/
def eigMin (nk nband ns : ℕ) (e : ℕ → ℕ → ℕ → ℚ) : ℚ :=
  (allEigs nk nband ns e).foldr min (e 0 0 0)

/-- The `(isp, ik)` pairs in the iteration order of `select_bands`
(`isp` outer, `ik` inner). -/
def pairList (ns nk : ℕ) : List (ℕ × ℕ) :=
  (List.range ns).flatMap fun isp => (List.range nk).map fun ik => (isp, ik)

/-- `ProjectorGroup.select_bands`: reject a window that does not overlap the
spectrum, then scan every `(isp, ik)` pair, filling the `ib_win` array
(initialized with zeros, like `np.zeros`) and folding `ib_min` (initial
value `10000000`) and `ib_max` (initial value `0`). -/
def select_bands (nk nband ns : ℕ) (e : ℕ → ℕ → ℕ → ℚ) (emin emax : ℚ) :
    Except SelectError SelOut :=
  if eigMax nk nband ns e < emin ∨ emax < eigMin nk nband ns e then
    .error .windowMismatch
  else
    scanPairs nband e emin emax (pairList ns nk)
      ⟨List.replicate nk (List.replicate ns (0, 0)), 10000000, 0⟩

/-- Shape invariant of the `ib_win` array: `nk` rows of `ns` entries
(`np.zeros((nk, ns_band, 2))`). -/
def WinShape (w : List (List (ℕ × ℕ))) (nk ns : ℕ) : Prop :=
  w.length = nk ∧ ∀ r ∈ w, r.length = ns

/-- The `.ok` payload of an `Except`, if any. -/
def exceptToOption {ε α : Type _} : Except ε α → Option α
  | .ok a => some a
  | .error _ => none

/-- The `.error` payload of an `Except`, if any. -/
def exceptToError {ε α : Type _} : Except ε α → Option ε
  | .ok _ => none
  | .error b => some b

/-! ### nelect_window (proj_group.py lines 87-102) -/

/-- The python slice `arr[i1:i2]` of a (conceptually unbounded) 1-d array
modelled by a total function: the values at indices `i1, …, i2 - 1`. -/
def occSlice (f : ℕ → ℚ) (i1 i2 : ℕ) : List ℚ :=
  (List.range' i1 (i2 - i1)).map f

/-- `ProjectorGroup.nelect_window`: sum, over every `(isp, ik)` pair, the
occupations `ferw[isp, ik, ib1 : ib2 + 1]` weighted by the k-point weight
and by the spin degeneracy `rspin` (2 when there is exactly one spin
channel, 1 otherwise).  `ib_win` is indexed `(ik, isp)`. -/
def nelect_window (nk ns : ℕ) (ib_win : ℕ → ℕ → ℕ × ℕ)
    (ferw : ℕ → ℕ → ℕ → ℚ) (kweights : ℕ → ℚ) : ℚ :=
  let rspin : ℚ := if ns = 1 then 2 else 1
  (pairList ns nk).foldl
    (fun acc p =>
      let ib1 := (ib_win p.2 p.1).1
      let ib2 := (ib_win p.2 p.1).2 + 1
      acc + (occSlice (ferw p.1 p.2) ib1 ib2).sum * kweights p.2 * rspin)
    0

/-! ### get_block_matrix_map (proj_group.py lines 164-246) -/

/-- The data of a `ProjectorShell` that `get_block_matrix_map` reads from
`proj_win.shape`: its site count and its orbital count. -/
structure Shell where
  nion : ℕ
  nlm : ℕ
deriving DecidableEq

/-- One entry of a block map: the dict
`{'bmat_range': (i1, i2), 'shell_ion': (ish, ion)}`. -/
structure Block where
  bmat_range : ℕ × ℕ
  shell_ion : ℕ × ℕ
deriving DecidableEq

/-- Default shell used for (never exercised) out-of-range list reads. -/
def dShell : Shell := ⟨0, 0⟩

/-- `self.shells[ish]`, reduced to the data the mapping code uses. -/
def shellAt (shells : List Shell) (ish : ℕ) : Shell := shells.getD ish dShell

/-- `ProjectorGroup.get_block_matrix_map`.  With `normion` one singleton
block map per `(shell, site)` pair, each block spanning rows `[0, nlm)`,
with `ndim` the running maximum of the `nlm` of the shells iterated;
without `normion` a single block map laying all `(shell, site)` pairs out
contiguously via the cumulative offset `i1_bl`, with `ndim` the final
offset (`i2_bl` of the last block; the python code raises a `NameError`
when no pair exists at all, here this corner returns `ndim = 0`). -/
def get_block_matrix_map (shells : List Shell) (ishells : List ℕ)
    (normion : Bool) : List (List Block) × ℕ :=
  if normion then
    ishells.foldl
      (fun acc ish =>
        let sh := shellAt shells ish
        (acc.1 ++ (List.range sh.nion).map fun ion => [⟨(0, sh.nlm), (ish, ion)⟩],
          max acc.2 sh.nlm))
      ([], 0)
  else
    let r := ishells.foldl
      (fun acc ish =>
        let sh := shellAt shells ish
        (List.range sh.nion).foldl
          (fun acc2 ion =>
            (acc2.1 ++ [⟨(acc2.2, acc2.2 + sh.nlm), (ish, ion)⟩],
              acc2.2 + sh.nlm))
          acc)
      ([], 0)
    ([r.1], r.2)

/-- The participating `(shell, site)` pairs of a group, in shell order and
site order within a shell. -/
def shellPairs (shells : List Shell) (ishells : List ℕ) : List (ℕ × ℕ) :=
  ishells.flatMap fun ish =>
    (List.range (shellAt shells ish).nion).map fun ion => (ish, ion)

/-- Default block used for (never exercised) out-of-range list reads. -/
def dBlock : Block := ⟨(0, 0), (0, 0)⟩

/-- The canonical contiguous layout of a list of `(shell, site)` pairs
starting at row offset `off`; the reference layout that the group-wide
fold of `get_block_matrix_map` is proved to produce. -/
def mkBlocks (shells : List Shell) : List (ℕ × ℕ) → ℕ → List Block
  | [], _ => []
  | p :: rest, off =>
    ⟨(off, off + (shellAt shells p.1).nlm), p⟩ ::
      mkBlocks shells rest (off + (shellAt shells p.1).nlm)

/-- Total orbital count of a list of `(shell, site)` pairs. -/
def nlmSum (shells : List Shell) (ps : List (ℕ × ℕ)) : ℕ :=
  (ps.map fun p => (shellAt shells p.1).nlm).sum

/-! ### the gather/scatter slice assignments of orthogonalize
(proj_group.py lines 140-157) -/

/-- Length of the numpy basic slice `arr[:n]` along an axis of length `L`:
slicing clips at the axis length instead of reading out of bounds. -/
def sliceLen (n L : ℕ) : ℕ := min n L

/-- The gather step
`p_mat[i1:i2, :nb] = shell.proj_win[ion, isp, ik, :nlm, :nb]` for one
block, restricted to the situation the code is in (`i2 ≤ ndim`, source and
destination of equal shape): rows `i1 ≤ r < i2`, columns `c < nb` of the
scratch matrix receive row `r - i1` of the (clipped) shell slice, and every
other entry is untouched. -/
def gatherBlock (pm proj : ℕ → ℕ → ℂ) (i1 i2 nb : ℕ) : ℕ → ℕ → ℂ :=
  fun r c => if i1 ≤ r ∧ r < i2 ∧ c < nb then proj (r - i1) c else pm r c

/-- The scatter step
`shell.proj_win[ion, isp, ik, :nlm, :nb] = p_orth[i1:i2, :nb]` for one
block: rows `r < nrows` (the clipped length of `proj_win[…, :nlm, …]`) and
columns `c < nb` of the shell array receive row `i1 + r` of `p_orth`, and
every other entry is untouched. -/
def scatterBlock (proj porth : ℕ → ℕ → ℂ) (nrows nb i1 : ℕ) : ℕ → ℕ → ℂ :=
  fun r c => if r < nrows ∧ c < nb then porth (i1 + r) c else proj r c

/-! ### orthogonalize_projector_matrix (proj_group.py lines 253-281) -/

/-- The overlap matrix `O = P · Pᴴ` (`np.dot(p_matrix, p_matrix.conj().T)`). -/
noncomputable def overlap {m n : ℕ} (P : Matrix (Fin m) (Fin n) ℂ) :
    Matrix (Fin m) (Fin m) ℂ :=
  P * Pᴴ

/-- `diag(1 / sqrt(eig))` (`sqrt_eig = 1.0 / np.sqrt(eig)` placed on the
diagonal by the columnwise product `eigv * sqrt_eig`). -/
noncomputable def invSqrtDiag {m : ℕ} (eig : Fin m → ℝ) :
    Matrix (Fin m) (Fin m) ℂ :=
  Matrix.diagonal fun i => (Real.sqrt (eig i) : ℂ)⁻¹

/-- `O^{-1/2} = V · diag(1/sqrt(eig)) · Vᴴ`
(`shalf = np.dot(eigv * sqrt_eig, eigv.conj().T)`). -/
noncomputable def shalf {m : ℕ} (V : Matrix (Fin m) (Fin m) ℂ)
    (eig : Fin m → ℝ) : Matrix (Fin m) (Fin m) ℂ :=
  V * invSqrtDiag eig * Vᴴ

/-- The diagonal matrix of the eigensolver output, as a complex matrix. -/
noncomputable def realDiag {m : ℕ} (eig : Fin m → ℝ) :
    Matrix (Fin m) (Fin m) ℂ :=
  Matrix.diagonal fun i => (eig i : ℂ)

/-- The failure of `orthogonalize_projector_matrix`: the
`assert np.all(eig > 0.0)` on the overlap eigenvalues. -/
inductive ProjError where
  | illConditioned
deriving DecidableEq

open scoped Classical in
/-- `ProjectorGroup.orthogonalize_projector_matrix`, with the
`np.linalg.eigh` oracle output `(eig, V)` passed explicitly: fail when some
eigenvalue is not strictly positive, otherwise return
`(shalf · P, overlap, eig)` with no change to the eigenvalues. -/
noncomputable def orthogonalize_projector_matrix {m n : ℕ}
    (P : Matrix (Fin m) (Fin n) ℂ) (V : Matrix (Fin m) (Fin m) ℂ)
    (eig : Fin m → ℝ) :
    Except ProjError
      (Matrix (Fin m) (Fin n) ℂ × Matrix (Fin m) (Fin m) ℂ × (Fin m → ℝ)) :=
  if ∀ i, 0 < eig i then .ok (shalf V eig * P, overlap P, eig)
  else .error .illConditioned

/-! ### Helper lemmas: the scanning loops -/

theorem scanFirst_some {p : ℕ → Bool} {i n j : ℕ}
    (h : scanFirst p i n = some j) :
    i ≤ j ∧ j < i + n ∧ p j = true ∧ ∀ k, i ≤ k → k < j → p k = false := by
  induction n generalizing i with
  | zero => simp [scanFirst] at h
  | succ n ih =>
    rw [scanFirst] at h
    by_cases hp : p i
    · rw [if_pos hp] at h
      cases h
      exact ⟨le_refl _, by omega, hp, fun k hk1 hk2 => absurd hk1 (by omega)⟩
    · rw [if_neg hp] at h
      obtain ⟨h1, h2, h3, h4⟩ := ih h
      refine ⟨by omega, by omega, h3, fun k hk1 hk2 => ?_⟩
      rcases Nat.eq_or_lt_of_le hk1 with rfl | hk1'
      · exact Bool.of_not_eq_true hp
      · exact h4 k hk1' hk2

theorem scanFirst_none {p : ℕ → Bool} {i n : ℕ}
    (h : scanFirst p i n = none) :
    ∀ k, i ≤ k → k < i + n → p k = false := by
  induction n generalizing i with
  | zero => intro k hk1 hk2; omega
  | succ n ih =>
    rw [scanFirst] at h
    by_cases hp : p i
    · rw [if_pos hp] at h; cases h
    · rw [if_neg hp] at h
      intro k hk1 hk2
      rcases Nat.eq_or_lt_of_le hk1 with rfl | hk1'
      · exact Bool.of_not_eq_true hp
      · exact ih h k hk1' (by omega)

theorem scanFirst_eq_some {p : ℕ → Bool} {i n j : ℕ}
    (hij : i ≤ j) (hjn : j < i + n) (hj : p j = true)
    (hmin : ∀ k, i ≤ k → k < j → p k = false) :
    scanFirst p i n = some j := by
  induction n generalizing i with
  | zero => omega
  | succ n ih =>
    rw [scanFirst]
    rcases Nat.eq_or_lt_of_le hij with rfl | hij'
    · rw [if_pos hj]
    · rw [if_neg (by simp [hmin i (le_refl _) hij'])]
      exact ih (by omega) (by omega) fun k hk1 hk2 => hmin k (by omega) hk2

theorem scanFirst_eq_none {p : ℕ → Bool} {i n : ℕ}
    (h : ∀ k, i ≤ k → k < i + n → p k = false) :
    scanFirst p i n = none := by
  induction n generalizing i with
  | zero => rw [scanFirst]
  | succ n ih =>
    rw [scanFirst, if_neg (by simp [h i (le_refl _) (by omega)])]
    exact ih fun k hk1 hk2 => h k (by omega) (by omega)

theorem pairIb1_lt {nband : ℕ} (f : ℕ → ℚ) (emin : ℚ) (hnb : 0 < nband) :
    pairIb1 nband f emin < nband := by
  rw [pairIb1]
  cases hsf : scanFirst (fun ib => decide (emin ≤ f ib)) 0 nband with
  | none => simp; omega
  | some j => obtain ⟨-, h2, -, -⟩ := scanFirst_some hsf; simpa using h2

theorem pairIb1_spec_exists {nband : ℕ} {f : ℕ → ℚ} {emin : ℚ}
    (h : ∃ j, j < nband ∧ emin ≤ f j) :
    emin ≤ f (pairIb1 nband f emin) ∧
      ∀ k, k < pairIb1 nband f emin → f k < emin := by
  obtain ⟨j, hj, hfj⟩ := h
  rw [pairIb1]
  cases hsf : scanFirst (fun ib => decide (emin ≤ f ib)) 0 nband with
  | none =>
    have := scanFirst_none hsf j (Nat.zero_le _) (by omega)
    simp [hfj] at this
  | some j' =>
    obtain ⟨-, -, h3, h4⟩ := scanFirst_some hsf
    refine ⟨by simpa using h3, fun k hk => ?_⟩
    have := h4 k (Nat.zero_le _) (by simpa using hk)
    simpa using this

theorem pairIb1_spec_all_lt {nband : ℕ} {f : ℕ → ℚ} {emin : ℚ}
    (h : ∀ j, j < nband → f j < emin) :
    pairIb1 nband f emin = nband - 1 := by
  rw [pairIb1, scanFirst_eq_none]
  · rfl
  · intro k _ hk
    simpa using not_le.2 (h k (by omega))

theorem pairBrk_bounds {nband : ℕ} (f : ℕ → ℚ) (emax : ℚ) {i1 : ℕ}
    (h : i1 ≤ nband) :
    i1 ≤ pairBrk nband f emax i1 ∧ pairBrk nband f emax i1 ≤ nband := by
  rw [pairBrk]
  cases hsf : scanFirst (fun ib => decide (emax < f ib)) i1 (nband - i1) with
  | none => simpa using h
  | some j => obtain ⟨h1, h2, -, -⟩ := scanFirst_some hsf; simp; omega

theorem pairBrk_le_emax {nband : ℕ} {f : ℕ → ℚ} {emax : ℚ} {i1 : ℕ}
    (k : ℕ) (hk1 : i1 ≤ k) (hk2 : k < pairBrk nband f emax i1)
    (hk3 : k < nband) : f k ≤ emax := by
  rw [pairBrk] at hk2
  cases hsf : scanFirst (fun ib => decide (emax < f ib)) i1 (nband - i1) with
  | none =>
    have := scanFirst_none hsf k hk1 (by omega)
    simpa using this
  | some j =>
    rw [hsf] at hk2
    have := (scanFirst_some hsf).2.2.2 k hk1 (by simpa using hk2)
    simpa using this

theorem pairBrk_gt_emax {nband : ℕ} {f : ℕ → ℚ} {emax : ℚ} {i1 : ℕ}
    (h : pairBrk nband f emax i1 < nband) :
    emax < f (pairBrk nband f emax i1) := by
  by_cases hn : scanFirst (fun ib => decide (emax < f ib)) i1 (nband - i1) = none
  · rw [pairBrk, hn] at h
    simp at h
  · obtain ⟨j, hj⟩ := Option.ne_none_iff_exists'.1 hn
    rw [pairBrk, hj]
    have := (scanFirst_some hj).2.2.1
    simpa using this

/-! ### Helper lemmas: folded maxima and minima -/

theorem le_foldr_max {l : List ℚ} {x : ℚ} (h : x ∈ l) (b : ℚ) :
    x ≤ l.foldr max b := by
  induction l with
  | nil => simp at h
  | cons y ys ih =>
    rcases List.mem_cons.1 h with rfl | h
    · exact le_max_left _ _
    · exact le_trans (ih h) (le_max_right _ _)

theorem init_le_foldr_max (l : List ℚ) (b : ℚ) : b ≤ l.foldr max b := by
  induction l with
  | nil => simp
  | cons y ys ih => exact le_trans ih (le_max_right _ _)

theorem foldr_max_mem (l : List ℚ) (b : ℚ) :
    l.foldr max b = b ∨ l.foldr max b ∈ l := by
  induction l with
  | nil => simp
  | cons y ys ih =>
    rcases max_choice y (ys.foldr max b) with h | h
    · right; simp [h]
    · rcases ih with h' | h'
      · left; rw [List.foldr_cons, h, h']
      · right; simp only [List.foldr_cons, h]; exact List.mem_cons_of_mem _ h'

theorem foldr_min_le {l : List ℚ} {x : ℚ} (h : x ∈ l) (b : ℚ) :
    l.foldr min b ≤ x := by
  induction l with
  | nil => simp at h
  | cons y ys ih =>
    rcases List.mem_cons.1 h with rfl | h
    · exact min_le_left _ _
    · exact le_trans (min_le_right _ _) (ih h)

theorem foldr_min_le_init (l : List ℚ) (b : ℚ) : l.foldr min b ≤ b := by
  induction l with
  | nil => simp
  | cons y ys ih => exact le_trans (min_le_right _ _) ih

theorem foldr_min_mem (l : List ℚ) (b : ℚ) :
    l.foldr min b = b ∨ l.foldr min b ∈ l := by
  induction l with
  | nil => simp
  | cons y ys ih =>
    rcases min_choice y (ys.foldr min b) with h | h
    · right; simp [h]
    · rcases ih with h' | h'
      · left; rw [List.foldr_cons, h, h']
      · right; simp only [List.foldr_cons, h]; exact List.mem_cons_of_mem _ h'

theorem foldl_min_le_init {α : Type _} (g : α → ℕ) (l : List α) (b : ℕ) :
    l.foldl (fun a p => min a (g p)) b ≤ b := by
  induction l generalizing b with
  | nil => simp
  | cons y ys ih => exact le_trans (ih _) (min_le_left _ _)

theorem foldl_min_le {α : Type _} (g : α → ℕ) {l : List α} {p : α}
    (h : p ∈ l) (b : ℕ) : l.foldl (fun a q => min a (g q)) b ≤ g p := by
  induction l generalizing b with
  | nil => simp at h
  | cons y ys ih =>
    rcases List.mem_cons.1 h with rfl | h
    · exact le_trans (foldl_min_le_init g ys _) (min_le_right _ _)
    · exact ih h _

theorem foldl_min_cases {α : Type _} (g : α → ℕ) (l : List α) (b : ℕ) :
    l.foldl (fun a q => min a (g q)) b = b ∨
      ∃ p ∈ l, l.foldl (fun a q => min a (g q)) b = g p := by
  induction l generalizing b with
  | nil => simp
  | cons y ys ih =>
    rcases ih (min b (g y)) with h | ⟨p, hp, h⟩
    · rcases min_choice b (g y) with h' | h'
      · left; simpa [h'] using h
      · right; exact ⟨y, List.mem_cons_self _ _, by simpa [h'] using h⟩
    · right; exact ⟨p, List.mem_cons_of_mem _ hp, by simpa using h⟩

theorem init_le_foldl_max {α : Type _} (g : α → ℕ) (l : List α) (b : ℕ) :
    b ≤ l.foldl (fun a q => max a (g q)) b := by
  induction l generalizing b with
  | nil => simp
  | cons y ys ih => exact le_trans (le_max_left _ _) (ih _)

theorem le_foldl_max {α : Type _} (g : α → ℕ) {l : List α} {p : α}
    (h : p ∈ l) (b : ℕ) : g p ≤ l.foldl (fun a q => max a (g q)) b := by
  induction l generalizing b with
  | nil => simp at h
  | cons y ys ih =>
    rcases List.mem_cons.1 h with rfl | h
    · exact le_trans (le_max_right b (g p)) (init_le_foldl_max g ys _)
    · exact ih h _

theorem foldl_max_cases {α : Type _} (g : α → ℕ) (l : List α) (b : ℕ) :
    l.foldl (fun a q => max a (g q)) b = b ∨
      ∃ p ∈ l, l.foldl (fun a q => max a (g q)) b = g p := by
  induction l generalizing b with
  | nil => simp
  | cons y ys ih =>
    rcases ih (max b (g y)) with h | ⟨p, hp, h⟩
    · rcases max_choice b (g y) with h' | h'
      · left; simpa [h'] using h
      · right; exact ⟨y, List.mem_cons_self _ _, by simpa [h'] using h⟩
    · right; exact ⟨p, List.mem_cons_of_mem _ hp, by simpa using h⟩

/-! ### Helper lemmas: array access -/

theorem getD_set_self {α : Type _} (l : List α) (i : ℕ) (a d : α)
    (h : i < l.length) : (l.set i a).getD i d = a := by
  simp [List.getD_eq_getElem?_getD, List.getElem?_set_self',
    List.getElem?_eq_getElem h]

theorem getD_set_other {α : Type _} (l : List α) {i j : ℕ} (a d : α)
    (h : i ≠ j) : (l.set i a).getD j d = l.getD j d := by
  simp [List.getD_eq_getElem?_getD, List.getElem?_set_ne h]

theorem getD_mem_of_lt {α : Type _} (l : List α) (i : ℕ) (d : α)
    (h : i < l.length) : l.getD i d ∈ l := by
  rw [List.getD_eq_getElem?_getD, List.getElem?_eq_getElem h]
  exact List.getElem_mem h

theorem getWin_setWin_self {w : List (List (ℕ × ℕ))} {nk ns ik isp : ℕ}
    (v : ℕ × ℕ) (hik : ik < nk) (hisp : isp < ns) (hw : WinShape w nk ns) :
    getWin (setWin w ik isp v) ik isp = v := by
  have hlen : ik < w.length := by rw [hw.1]; exact hik
  have hrow : (w.getD ik []).length = ns :=
    hw.2 _ (getD_mem_of_lt w ik [] hlen)
  rw [getWin, setWin, getD_set_self _ _ _ _ hlen,
    getD_set_self _ _ _ _ (by rw [hrow]; exact hisp)]

theorem getWin_setWin_other {w : List (List (ℕ × ℕ))} {ik isp ik' isp' : ℕ}
    (v : ℕ × ℕ) (h : ik ≠ ik' ∨ isp ≠ isp') :
    getWin (setWin w ik isp v) ik' isp' = getWin w ik' isp' := by
  rcases h with h | h
  · rw [getWin, setWin, getD_set_other _ _ _ h, getWin]
  · rcases eq_or_ne ik ik' with rfl | hik
    · rw [getWin, setWin, getWin]
      rcases lt_or_le ik w.length with hlt | hle
      · rw [getD_set_self _ _ _ _ hlt, getD_set_other _ _ _ h]
      · rw [List.set_eq_of_length_le hle]
    · rw [getWin, setWin, getD_set_other _ _ _ hik, getWin]

theorem winShape_setWin {w : List (List (ℕ × ℕ))} {nk ns ik isp : ℕ}
    (v : ℕ × ℕ) (hik : ik < nk) (hw : WinShape w nk ns) :
    WinShape (setWin w ik isp v) nk ns := by
  refine ⟨by rw [setWin, List.length_set]; exact hw.1, fun r hr => ?_⟩
  rcases List.mem_or_eq_of_mem_set hr with h | h
  · exact hw.2 r h
  · rw [h, List.length_set]
    exact hw.2 _ (getD_mem_of_lt w ik [] (by rw [hw.1]; exact hik))

theorem winShape_replicate (nk ns : ℕ) :
    WinShape (List.replicate nk (List.replicate ns ((0 : ℕ), (0 : ℕ)))) nk ns := by
  refine ⟨by simp, fun r hr => ?_⟩
  rw [List.eq_of_mem_replicate hr, List.length_replicate]

/-! ### Helper lemmas: eigenvalue array and pair list -/

theorem mem_allEigs {nk nband ns : ℕ} {e : ℕ → ℕ → ℕ → ℚ} {x : ℚ} :
    x ∈ allEigs nk nband ns e ↔
      ∃ ik, ik < nk ∧ ∃ ib, ib < nband ∧ ∃ isp, isp < ns ∧
        x = e ik ib isp := by
  simp only [allEigs, List.mem_flatMap, List.mem_map, List.mem_range]
  constructor
  · rintro ⟨ik, hik, ib, hib, isp, hisp, rfl⟩
    exact ⟨ik, hik, ib, hib, isp, hisp, rfl⟩
  · rintro ⟨ik, hik, ib, hib, isp, hisp, rfl⟩
    exact ⟨ik, hik, ib, hib, isp, hisp, rfl⟩

theorem mem_pairList {ns nk : ℕ} {p : ℕ × ℕ} :
    p ∈ pairList ns nk ↔ p.1 < ns ∧ p.2 < nk := by
  obtain ⟨isp, ik⟩ := p
  simp only [pairList, List.mem_flatMap, List.mem_map, List.mem_range]
  constructor
  · rintro ⟨a, ha, b, hb, h⟩
    cases h
    exact ⟨ha, hb⟩
  · rintro ⟨h1, h2⟩
    exact ⟨isp, h1, ik, h2, rfl⟩

theorem pairList_nodup (ns nk : ℕ) : (pairList ns nk).Nodup := by
  induction ns with
  | zero => simp [pairList]
  | succ n ih =>
    have hsplit : pairList (n + 1) nk =
        pairList n nk ++ (List.range nk).map fun ik => (n, ik) := by
      rw [pairList, pairList, List.range_succ, List.flatMap_append]
      simp
    rw [hsplit]
    refine List.Nodup.append ih ?_ ?_
    · exact (List.nodup_range nk).map fun a b hab => by
        simpa using congrArg Prod.snd hab
    · intro p hp hq
      obtain ⟨ik, -, rfl⟩ := List.mem_map.1 hq
      have h1 := (@mem_pairList n nk _).1 hp
      exact absurd h1.1 (lt_irrefl n)

/-! ### Helper lemmas: the pair scan of select_bands -/

theorem scanPairs_ok_noFail {nband : ℕ} {e : ℕ → ℕ → ℕ → ℚ} {emin emax : ℚ}
    {l : List (ℕ × ℕ)} {st out : SelOut}
    (h : scanPairs nband e emin emax l st = .ok out) :
    ∀ p ∈ l, ¬ pFails nband e emin emax p := by
  induction l generalizing st with
  | nil => simp
  | cons p rest ih =>
    rw [scanPairs] at h
    by_cases hf : pBrk nband e emin emax p ≤ pIb1 nband e emin p
    · rw [if_pos hf] at h; cases h
    · rw [if_neg hf] at h
      intro q hq
      rcases List.mem_cons.1 hq with rfl | hq'
      · exact hf
      · exact ih h q hq'

theorem scanPairs_error_spec {nband : ℕ} {e : ℕ → ℕ → ℕ → ℚ} {emin emax : ℚ}
    {l : List (ℕ × ℕ)} {st : SelOut} {err : SelectError}
    (h : scanPairs nband e emin emax l st = .error err) :
    ∃ p ∈ l, pFails nband e emin emax p ∧ err = .emptyWindow p.2 := by
  induction l generalizing st with
  | nil => rw [scanPairs] at h; cases h
  | cons p rest ih =>
    rw [scanPairs] at h
    by_cases hf : pBrk nband e emin emax p ≤ pIb1 nband e emin p
    · rw [if_pos hf] at h
      cases h
      exact ⟨p, List.mem_cons_self _ _, hf, rfl⟩
    · rw [if_neg hf] at h
      obtain ⟨q, hq, hfq, herr⟩ := ih h
      exact ⟨q, List.mem_cons_of_mem _ hq, hfq, herr⟩

theorem scanPairs_ok_spec {nband : ℕ} {e : ℕ → ℕ → ℕ → ℚ} {emin emax : ℚ}
    {nk ns : ℕ} {l : List (ℕ × ℕ)} {st out : SelOut}
    (hok : scanPairs nband e emin emax l st = .ok out)
    (hin : ∀ p ∈ l, p.1 < ns ∧ p.2 < nk)
    (hnd : l.Nodup) (hshape : WinShape st.ib_win nk ns) :
    WinShape out.ib_win nk ns ∧
    out.ib_min = l.foldl (fun a q => min a (pIb1 nband e emin q)) st.ib_min ∧
    out.ib_max = l.foldl (fun a q => max a (pIb2 nband e emin emax q)) st.ib_max ∧
    (∀ p ∈ l, getWin out.ib_win p.2 p.1 =
      (pIb1 nband e emin p, pIb2 nband e emin emax p)) ∧
    ∀ ik isp : ℕ, ((isp, ik) : ℕ × ℕ) ∉ l →
      getWin out.ib_win ik isp = getWin st.ib_win ik isp := by
  induction l generalizing st with
  | nil =>
    rw [scanPairs] at hok
    cases hok
    exact ⟨hshape, rfl, rfl, by simp, fun _ _ _ => rfl⟩
  | cons p rest ih =>
    rw [scanPairs] at hok
    by_cases hf : pBrk nband e emin emax p ≤ pIb1 nband e emin p
    · rw [if_pos hf] at hok; cases hok
    · rw [if_neg hf] at hok
      have hpns := hin p (List.mem_cons_self _ _)
      have hshape' : WinShape (setWin st.ib_win p.2 p.1
          (pIb1 nband e emin p, pIb2 nband e emin emax p)) nk ns :=
        winShape_setWin _ hpns.2 hshape
      have hpnotin : p ∉ rest := (List.nodup_cons.1 hnd).1
      obtain ⟨s1, s2, s3, s4, s5⟩ := ih hok
        (fun q hq => hin q (List.mem_cons_of_mem _ hq))
        (List.nodup_cons.1 hnd).2 hshape'
      refine ⟨s1, ?_, ?_, ?_, ?_⟩
      · rw [List.foldl_cons]; exact s2
      · rw [List.foldl_cons]; exact s3
      · intro q hq
        rcases List.mem_cons.1 hq with rfl | hq'
        · have hne : ((q.1, q.2) : ℕ × ℕ) ∉ rest := by
            rw [Prod.mk.eta]; exact hpnotin
          rw [s5 q.2 q.1 hne]
          exact getWin_setWin_self _ hpns.2 hpns.1 hshape
        · exact s4 q hq'
      · intro ik isp hnotin
        have h1 : ((isp, ik) : ℕ × ℕ) ∉ rest := fun hc =>
          hnotin (List.mem_cons_of_mem _ hc)
        have h2 : ((isp, ik) : ℕ × ℕ) ≠ p := fun hc =>
          hnotin (hc ▸ List.mem_cons_self _ _)
        rw [s5 ik isp h1]
        refine getWin_setWin_other _ ?_
        by_cases hik : p.2 = ik
        · right
          intro hisp
          exact h2 (by rw [← hik, ← hisp, Prod.mk.eta])
        · left; exact hik

theorem select_bands_ok_elim {nk nband ns : ℕ} {e : ℕ → ℕ → ℕ → ℚ}
    {emin emax : ℚ} {out : SelOut}
    (h : select_bands nk nband ns e emin emax = .ok out) :
    ¬ (eigMax nk nband ns e < emin ∨ emax < eigMin nk nband ns e) ∧
      scanPairs nband e emin emax (pairList ns nk)
        ⟨List.replicate nk (List.replicate ns (0, 0)), 10000000, 0⟩ = .ok out := by
  by_cases hc : eigMax nk nband ns e < emin ∨ emax < eigMin nk nband ns e
  · rw [select_bands, if_pos hc] at h; cases h
  · rw [select_bands, if_neg hc] at h; exact ⟨hc, h⟩

/-- C5 needs `select_bands` never to return the window-mismatch error once the
initial check has passed. -/
theorem scanPairs_no_windowMismatch {nband : ℕ} {e : ℕ → ℕ → ℕ → ℚ}
    {emin emax : ℚ} {l : List (ℕ × ℕ)} {st : SelOut}
    (h : scanPairs nband e emin emax l st = .error .windowMismatch) : False := by
  obtain ⟨p, -, -, herr⟩ := scanPairs_error_spec h
  cases herr

/-! ### Helper lemmas: one sorted band sweep -/

theorem pair_ok_ib2_spec {nband : ℕ} {f : ℕ → ℚ} {emin emax : ℚ}
    (hnb : 0 < nband)
    (hs : ∀ i, i < nband → ∀ j, j < nband → i ≤ j → f i ≤ f j)
    (hok : ¬ pairBrk nband f emax (pairIb1 nband f emin) ≤
      pairIb1 nband f emin) :
    pairBrk nband f emax (pairIb1 nband f emin) - 1 < nband ∧
    f (pairBrk nband f emax (pairIb1 nband f emin) - 1) ≤ emax ∧
    ∀ j, j < nband → pairBrk nband f emax (pairIb1 nband f emin) - 1 < j →
      emax < f j := by
  have hib1 : pairIb1 nband f emin < nband := pairIb1_lt f emin hnb
  have hbnd := pairBrk_bounds f emax (le_of_lt hib1)
  have hlt : pairIb1 nband f emin < pairBrk nband f emax (pairIb1 nband f emin) := by
    omega
  refine ⟨by omega, ?_, ?_⟩
  · exact @pairBrk_le_emax nband f emax (pairIb1 nband f emin) _ (by omega)
      (by omega) (by omega)
  · intro j hj1 hj2
    have hbrk_lt : pairBrk nband f emax (pairIb1 nband f emin) < nband := by omega
    exact lt_of_lt_of_le (pairBrk_gt_emax hbrk_lt)
      (hs _ hbrk_lt j hj1 (by omega))

theorem pair_window_mem {nband : ℕ} {f : ℕ → ℚ} {emin emax : ℚ}
    (hnb : 0 < nband)
    (hs : ∀ i, i < nband → ∀ j, j < nband → i ≤ j → f i ≤ f j)
    (hex : ∃ j, j < nband ∧ emin ≤ f j)
    (hok : ¬ pairBrk nband f emax (pairIb1 nband f emin) ≤
      pairIb1 nband f emin) :
    ∀ j, pairIb1 nband f emin ≤ j →
      j ≤ pairBrk nband f emax (pairIb1 nband f emin) - 1 →
      emin ≤ f j ∧ f j ≤ emax := by
  have hib1 : pairIb1 nband f emin < nband := pairIb1_lt f emin hnb
  have hbnd := pairBrk_bounds f emax (le_of_lt hib1)
  intro j hj1 hj2
  have hjn : j < nband := by omega
  constructor
  · exact le_trans (pairIb1_spec_exists hex).1 (hs _ hib1 j hjn hj1)
  · exact @pairBrk_le_emax nband f emax (pairIb1 nband f emin) j hj1
      (by omega) hjn

theorem pair_fails_iff_empty {nband : ℕ} {f : ℕ → ℚ} {emin emax : ℚ}
    (hnb : 0 < nband)
    (hs : ∀ i, i < nband → ∀ j, j < nband → i ≤ j → f i ≤ f j)
    (hex : ∃ j, j < nband ∧ emin ≤ f j) :
    pairBrk nband f emax (pairIb1 nband f emin) ≤ pairIb1 nband f emin ↔
      ∀ j, j < nband → ¬ (emin ≤ f j ∧ f j ≤ emax) := by
  have hib1 : pairIb1 nband f emin < nband := pairIb1_lt f emin hnb
  have hbnd := pairBrk_bounds f emax (le_of_lt hib1)
  obtain ⟨hge, hmin⟩ := pairIb1_spec_exists hex
  constructor
  · intro hfail j hj
    have heq : pairBrk nband f emax (pairIb1 nband f emin) =
        pairIb1 nband f emin := by omega
    have hgt : emax < f (pairIb1 nband f emin) := by
      have := @pairBrk_gt_emax nband f emax (pairIb1 nband f emin) (by omega)
      rwa [heq] at this
    rcases lt_or_le j (pairIb1 nband f emin) with hjlt | hjge
    · intro hc
      exact absurd hc.1 (not_le.2 (hmin j hjlt))
    · intro hc
      exact absurd hc.2 (not_le.2 (lt_of_lt_of_le hgt (hs _ hib1 j hj hjge)))
  · intro hempty
    have hgt : emax < f (pairIb1 nband f emin) := by
      have := hempty _ hib1
      by_contra hc
      exact this ⟨hge, le_of_not_lt hc⟩
    have : pairBrk nband f emax (pairIb1 nband f emin) =
        pairIb1 nband f emin := by
      rw [pairBrk, scanFirst_eq_some (le_refl _) (by omega) (by simpa using hgt)
        (fun k hk1 hk2 => absurd hk1 (by omega))]
      rfl
    omega

/-! ### Claim theorems: select_bands -/

/-- C5 (confirmed): `select_bands` fails with `WindowMismatchError` if and only
if `emin > max(eigvals)` or `emax < min(eigvals)`, i.e. exactly when the window
does not intersect the spectrum; `eigMax`/`eigMin` are moreover proved to be
the attained greatest and least eigenvalues.  Once the initial check passes,
the window-mismatch error is never produced by the band scan. -/
theorem select_bands_window_mismatch_iff
    (nk nband ns : ℕ) (e : ℕ → ℕ → ℕ → ℚ) (emin emax : ℚ)
    (hnk : 0 < nk) (hnb : 0 < nband) (hns : 0 < ns) :
    (select_bands nk nband ns e emin emax = .error .windowMismatch ↔
      eigMax nk nband ns e < emin ∨ emax < eigMin nk nband ns e) ∧
    (∀ ik, ik < nk → ∀ ib, ib < nband → ∀ isp, isp < ns →
      eigMin nk nband ns e ≤ e ik ib isp ∧ e ik ib isp ≤ eigMax nk nband ns e) ∧
    (∃ ik, ik < nk ∧ ∃ ib, ib < nband ∧ ∃ isp, isp < ns ∧
      eigMax nk nband ns e = e ik ib isp) ∧
    (∃ ik, ik < nk ∧ ∃ ib, ib < nband ∧ ∃ isp, isp < ns ∧
      eigMin nk nband ns e = e ik ib isp) := by
  refine ⟨⟨fun h => ?_, fun h => by rw [select_bands, if_pos h]⟩, ?_, ?_, ?_⟩
  · by_contra hc
    rw [select_bands, if_neg hc] at h
    exact scanPairs_no_windowMismatch h
  · intro ik hik ib hib isp hisp
    have hmem : e ik ib isp ∈ allEigs nk nband ns e :=
      mem_allEigs.2 ⟨ik, hik, ib, hib, isp, hisp, rfl⟩
    exact ⟨foldr_min_le hmem _, le_foldr_max hmem _⟩
  · rcases foldr_max_mem (allEigs nk nband ns e) (e 0 0 0) with h | h
    · exact ⟨0, hnk, 0, hnb, 0, hns, h⟩
    · obtain ⟨ik, hik, ib, hib, isp, hisp, hx⟩ := mem_allEigs.1 h
      exact ⟨ik, hik, ib, hib, isp, hisp, hx⟩
  · rcases foldr_min_mem (allEigs nk nband ns e) (e 0 0 0) with h | h
    · exact ⟨0, hnk, 0, hnb, 0, hns, h⟩
    · obtain ⟨ik, hik, ib, hib, isp, hisp, hx⟩ := mem_allEigs.1 h
      exact ⟨ik, hik, ib, hib, isp, hisp, hx⟩

/-- Witness for C5: a one-band spectrum `{0}` with the window `(5, 6)` lying
entirely above it. -/
theorem select_bands_window_mismatch_iff_witness :
    (0 : ℕ) < 1 ∧
    ((select_bands 1 1 1 (fun _ _ _ => (0 : ℚ)) 5 6 = .error .windowMismatch ↔
      eigMax 1 1 1 (fun _ _ _ => (0 : ℚ)) < 5 ∨
        6 < eigMin 1 1 1 (fun _ _ _ => (0 : ℚ))) ∧
    (∀ ik, ik < 1 → ∀ ib, ib < 1 → ∀ isp, isp < 1 →
      eigMin 1 1 1 (fun _ _ _ => (0 : ℚ)) ≤ (fun _ _ _ => (0 : ℚ)) ik ib isp ∧
        (fun _ _ _ => (0 : ℚ)) ik ib isp ≤ eigMax 1 1 1 (fun _ _ _ => (0 : ℚ))) ∧
    (∃ ik, ik < 1 ∧ ∃ ib, ib < 1 ∧ ∃ isp, isp < 1 ∧
      eigMax 1 1 1 (fun _ _ _ => (0 : ℚ)) = (fun _ _ _ => (0 : ℚ)) ik ib isp) ∧
    (∃ ik, ik < 1 ∧ ∃ ib, ib < 1 ∧ ∃ isp, isp < 1 ∧
      eigMin 1 1 1 (fun _ _ _ => (0 : ℚ)) = (fun _ _ _ => (0 : ℚ)) ik ib isp)) :=
  ⟨by decide,
    select_bands_window_mismatch_iff 1 1 1 (fun _ _ _ => (0 : ℚ)) 5 6
      (by decide) (by decide) (by decide)⟩

/-- C4 (amended): for sorted eigenvalues and an overlapping window, whenever
`select_bands` returns, then per `(k, spin)`: `ib1` is the first band index
with energy `≥ emin` when such a band exists (and is the last band index,
`nband - 1`, when none exists — this is what the python loop leaves behind);
`ib2` is the last band index with energy `≤ emax`; globally
`ib_min`/`ib_max` are the minimum of `ib1` and the maximum of `ib2` over all
pairs, provided `nband ≤ 10000000` (the code initializes its running minimum
with the literal `10000000`, which caps `ib_min` for larger band counts).
The spec scenario `[[-1, 0, 1]]` with window `(-0.5, 0.5)` yields
`ib1 = ib2 = 1`. -/
theorem select_bands_values
    (nk nband ns : ℕ) (e : ℕ → ℕ → ℕ → ℚ) (emin emax : ℚ)
    (hnk : 0 < nk) (hnb : 0 < nband) (hns : 0 < ns) (hcap : nband ≤ 10000000)
    (hs : ∀ ik, ik < nk → ∀ isp, isp < ns → ∀ i, i < nband → ∀ j, j < nband →
      i ≤ j → e ik i isp ≤ e ik j isp)
    (out : SelOut)
    (hok : exceptToOption (select_bands nk nband ns e emin emax) = some out) :
    (∀ ik, ik < nk → ∀ isp, isp < ns →
      ((∃ j, j < nband ∧ emin ≤ e ik j isp) →
        emin ≤ e ik (getWin out.ib_win ik isp).1 isp ∧
        ∀ j, j < (getWin out.ib_win ik isp).1 → e ik j isp < emin) ∧
      ((∀ j, j < nband → e ik j isp < emin) →
        (getWin out.ib_win ik isp).1 = nband - 1) ∧
      (getWin out.ib_win ik isp).1 < nband ∧
      (getWin out.ib_win ik isp).2 < nband ∧
      e ik (getWin out.ib_win ik isp).2 isp ≤ emax ∧
      ∀ j, j < nband → (getWin out.ib_win ik isp).2 < j → emax < e ik j isp) ∧
    (∀ ik, ik < nk → ∀ isp, isp < ns →
      out.ib_min ≤ (getWin out.ib_win ik isp).1 ∧
      (getWin out.ib_win ik isp).2 ≤ out.ib_max) ∧
    (∃ ik, ik < nk ∧ ∃ isp, isp < ns ∧
      out.ib_min = (getWin out.ib_win ik isp).1) ∧
    (∃ ik, ik < nk ∧ ∃ isp, isp < ns ∧
      out.ib_max = (getWin out.ib_win ik isp).2) ∧
    exceptToOption (select_bands 1 3 1 (fun _ ib _ => if ib = 0 then (-1 : ℚ) else if ib = 1 then 0 else 1)
      (mkRat (-1) 2) (mkRat 1 2)) = some ⟨[[(1, 1)]], 1, 1⟩ := by
  have hok' : select_bands nk nband ns e emin emax = .ok out := by
    cases hsel : select_bands nk nband ns e emin emax with
    | ok a => rw [hsel, exceptToOption] at hok; cases hok; rfl
    | error b => rw [hsel, exceptToOption] at hok; cases hok
  obtain ⟨hover, hscan⟩ := select_bands_ok_elim hok'
  obtain ⟨s1, s2, s3, s4, s5⟩ := scanPairs_ok_spec hscan
    (fun p hp => mem_pairList.1 hp) (pairList_nodup ns nk)
    (winShape_replicate nk ns)
  have hnofail := scanPairs_ok_noFail hscan
  have hwin : ∀ ik, ik < nk → ∀ isp, isp < ns →
      getWin out.ib_win ik isp =
        (pIb1 nband e emin (isp, ik), pIb2 nband e emin emax (isp, ik)) :=
    fun ik hik isp hisp => s4 (isp, ik) (mem_pairList.2 ⟨hisp, hik⟩)
  refine ⟨?_, ?_, ?_, ?_, by decide⟩
  · intro ik hik isp hisp
    rw [hwin ik hik isp hisp]
    have hsp : ∀ i, i < nband → ∀ j, j < nband → i ≤ j →
        bandAt e (isp, ik) i ≤ bandAt e (isp, ik) j :=
      fun i hi j hj hij => hs ik hik isp hisp i hi j hj hij
    have hnf := hnofail (isp, ik) (mem_pairList.2 ⟨hisp, hik⟩)
    obtain ⟨h1, h2, h3⟩ := pair_ok_ib2_spec hnb hsp hnf
    exact ⟨fun hex => pairIb1_spec_exists hex,
      fun hall => pairIb1_spec_all_lt hall,
      pairIb1_lt _ emin hnb, h1, h2, fun j hj1 hj2 => h3 j hj1 hj2⟩
  · intro ik hik isp hisp
    rw [hwin ik hik isp hisp, s2, s3]
    exact ⟨foldl_min_le (fun q => pIb1 nband e emin q)
        (mem_pairList.2 ⟨hisp, hik⟩) _,
      le_foldl_max (fun q => pIb2 nband e emin emax q)
        (mem_pairList.2 ⟨hisp, hik⟩) _⟩
  · rcases foldl_min_cases (fun q => pIb1 nband e emin q) (pairList ns nk)
        10000000 with h | ⟨p, hp, h⟩
    · exfalso
      have h0 : ((0, 0) : ℕ × ℕ) ∈ pairList ns nk := mem_pairList.2 ⟨hns, hnk⟩
      have hle := foldl_min_le (fun q => pIb1 nband e emin q) h0 10000000
      have hlt := pairIb1_lt (bandAt e ((0 : ℕ), (0 : ℕ))) emin hnb
      rw [h] at hle
      have : pIb1 nband e emin (0, 0) < nband := hlt
      omega
    · obtain ⟨hp1, hp2⟩ := mem_pairList.1 hp
      refine ⟨p.2, hp2, p.1, hp1, ?_⟩
      rw [hwin p.2 hp2 p.1 hp1, s2, Prod.mk.eta]
      exact h
  · rcases foldl_max_cases (fun q => pIb2 nband e emin emax q) (pairList ns nk)
        0 with h | ⟨p, hp, h⟩
    · have h0 : ((0, 0) : ℕ × ℕ) ∈ pairList ns nk := mem_pairList.2 ⟨hns, hnk⟩
      have hle := le_foldl_max (fun q => pIb2 nband e emin emax q) h0 0
      refine ⟨0, hnk, 0, hns, ?_⟩
      rw [hwin 0 hnk 0 hns, s3, h]
      omega
    · obtain ⟨hp1, hp2⟩ := mem_pairList.1 hp
      refine ⟨p.2, hp2, p.1, hp1, ?_⟩
      rw [hwin p.2 hp2 p.1 hp1, s3, Prod.mk.eta]
      exact h

/-- Witness for C4 at the spec scenario `[[-1, 0, 1]]`, window `(-0.5, 0.5)`. -/
theorem select_bands_values_witness :
    (0 : ℕ) < 1 ∧ (0 : ℕ) < 3 ∧ (3 : ℕ) ≤ 10000000 ∧
    exceptToOption (select_bands 1 3 1 (fun _ ib _ => if ib = 0 then (-1 : ℚ) else if ib = 1 then 0 else 1)
      (mkRat (-1) 2) (mkRat 1 2)) = some ⟨[[(1, 1)]], 1, 1⟩ ∧
    ((∀ ik, ik < 1 → ∀ isp, isp < 1 →
      ((∃ j, j < 3 ∧ mkRat (-1) 2 ≤ (fun _ ib _ => if ib = 0 then (-1 : ℚ) else if ib = 1 then 0 else 1) ik j isp) →
        mkRat (-1) 2 ≤ (fun _ ib _ => if ib = 0 then (-1 : ℚ) else if ib = 1 then 0 else 1) ik
          (getWin (SelOut.mk [[(1, 1)]] 1 1).ib_win ik isp).1 isp ∧
        ∀ j, j < (getWin (SelOut.mk [[(1, 1)]] 1 1).ib_win ik isp).1 →
          (fun _ ib _ => if ib = 0 then (-1 : ℚ) else if ib = 1 then 0 else 1) ik j isp < mkRat (-1) 2) ∧
      ((∀ j, j < 3 → (fun _ ib _ => if ib = 0 then (-1 : ℚ) else if ib = 1 then 0 else 1) ik j isp < mkRat (-1) 2) →
        (getWin (SelOut.mk [[(1, 1)]] 1 1).ib_win ik isp).1 = 3 - 1) ∧
      (getWin (SelOut.mk [[(1, 1)]] 1 1).ib_win ik isp).1 < 3 ∧
      (getWin (SelOut.mk [[(1, 1)]] 1 1).ib_win ik isp).2 < 3 ∧
      (fun _ ib _ => if ib = 0 then (-1 : ℚ) else if ib = 1 then 0 else 1) ik
        (getWin (SelOut.mk [[(1, 1)]] 1 1).ib_win ik isp).2 isp ≤ mkRat 1 2 ∧
      ∀ j, j < 3 → (getWin (SelOut.mk [[(1, 1)]] 1 1).ib_win ik isp).2 < j →
        mkRat 1 2 < (fun _ ib _ => if ib = 0 then (-1 : ℚ) else if ib = 1 then 0 else 1) ik j isp) ∧
    (∀ ik, ik < 1 → ∀ isp, isp < 1 →
      (SelOut.mk [[(1, 1)]] 1 1).ib_min ≤
        (getWin (SelOut.mk [[(1, 1)]] 1 1).ib_win ik isp).1 ∧
      (getWin (SelOut.mk [[(1, 1)]] 1 1).ib_win ik isp).2 ≤
        (SelOut.mk [[(1, 1)]] 1 1).ib_max) ∧
    (∃ ik, ik < 1 ∧ ∃ isp, isp < 1 ∧
      (SelOut.mk [[(1, 1)]] 1 1).ib_min =
        (getWin (SelOut.mk [[(1, 1)]] 1 1).ib_win ik isp).1) ∧
    (∃ ik, ik < 1 ∧ ∃ isp, isp < 1 ∧
      (SelOut.mk [[(1, 1)]] 1 1).ib_max =
        (getWin (SelOut.mk [[(1, 1)]] 1 1).ib_win ik isp).2) ∧
    exceptToOption (select_bands 1 3 1 (fun _ ib _ => if ib = 0 then (-1 : ℚ) else if ib = 1 then 0 else 1)
      (mkRat (-1) 2) (mkRat 1 2)) = some ⟨[[(1, 1)]], 1, 1⟩) :=
  ⟨by decide, by decide, by decide, by decide,
    select_bands_values 1 3 1 (fun _ ib _ => if ib = 0 then (-1 : ℚ) else if ib = 1 then 0 else 1) (mkRat (-1) 2) (mkRat 1 2)
      (by decide) (by decide) (by decide) (by decide) (by decide)
      (SelOut.mk [[(1, 1)]] 1 1) (by decide)⟩

/-- C4 (counterexample): two concrete inputs refute the claim as stated.
First, eigenvalues `[[0], [10]]` (2 k-points, 1 band, 1 spin) with the
overlapping window `(5, 20)` return normally with `ib1 = 0` at `ik = 0`
although no band there has energy `≥ emin = 5` (the first loop of
`select_bands` leaves its loop variable at the last band), so `ib1` is not
"the first band index with energy ≥ emin".  Second, with
`nband = 10000002` bands, one `(k, spin)` pair whose `ib1` is `10000001`
yields `ib_min = 10000000` — the code's literal initializer — which is not
the minimum of the `ib1` values. -/
theorem select_bands_values_counterexample :
    (exceptToOption (select_bands 2 1 1
        (fun ik _ _ => if ik = 0 then (0 : ℚ) else 10) 5 20) =
      some ⟨[[(0, 0)], [(0, 0)]], 0, 0⟩ ∧
      (fun ik _ _ => if ik = 0 then (0 : ℚ) else 10) 0 0 0 < 5) ∧
    (exceptToOption (select_bands 1 10000002 1
        (fun _ ib _ => if ib ≤ 10000000 then (-1 : ℚ) else 1) 0 5) =
      some ⟨[[(10000001, 10000001)]], 10000000, 10000001⟩ ∧
      (10000000 : ℕ) ≠ 10000001) := by
  refine ⟨by decide, ?_, by decide⟩
  have hmem1 : (1 : ℚ) ∈ allEigs 1 10000002 1
      (fun _ ib _ => if ib ≤ 10000000 then (-1 : ℚ) else 1) :=
    mem_allEigs.2 ⟨0, by norm_num, 10000001, by norm_num, 0, by norm_num,
      by norm_num⟩
  have hmem2 : (-1 : ℚ) ∈ allEigs 1 10000002 1
      (fun _ ib _ => if ib ≤ 10000000 then (-1 : ℚ) else 1) :=
    mem_allEigs.2 ⟨0, by norm_num, 0, by norm_num, 0, by norm_num,
      by norm_num⟩
  have hcond : ¬ (eigMax 1 10000002 1
        (fun _ ib _ => if ib ≤ 10000000 then (-1 : ℚ) else 1) < 0 ∨
      (5 : ℚ) < eigMin 1 10000002 1
        (fun _ ib _ => if ib ≤ 10000000 then (-1 : ℚ) else 1)) := by
    have h1 := le_foldr_max hmem1
      ((fun _ ib _ => if ib ≤ 10000000 then (-1 : ℚ) else 1) 0 0 0)
    have h2 := foldr_min_le hmem2
      ((fun _ ib _ => if ib ≤ 10000000 then (-1 : ℚ) else 1) 0 0 0)
    rintro (hc | hc)
    · rw [eigMax] at hc; linarith
    · rw [eigMin] at hc; linarith
  have hib1 : pIb1 10000002
      (fun _ ib _ => if ib ≤ 10000000 then (-1 : ℚ) else 1) 0 (0, 0) =
      10000001 := by
    rw [pIb1, pairIb1, scanFirst_eq_some (Nat.zero_le 10000001) (by norm_num)
      (by norm_num [bandAt]) ?_]
    · rfl
    · intro k _ hk
      have : k ≤ 10000000 := by omega
      simp only [bandAt, if_pos this]
      norm_num
  have hbrk : pBrk 10000002
      (fun _ ib _ => if ib ≤ 10000000 then (-1 : ℚ) else 1) 0 5 (0, 0) =
      10000002 := by
    rw [pBrk, hib1, pairBrk, scanFirst_eq_none ?_]
    · rfl
    · intro k hk1 hk2
      rcases le_or_lt k 10000000 with h | h
      · simp only [bandAt, if_pos h]
        norm_num
      · simp only [bandAt, if_neg (by omega : ¬ k ≤ 10000000)]
        norm_num
  have hsel : select_bands 1 10000002 1
      (fun _ ib _ => if ib ≤ 10000000 then (-1 : ℚ) else 1) 0 5 =
      .ok ⟨[[(10000001, 10000001)]], 10000000, 10000001⟩ := by
    rw [select_bands, if_neg hcond]
    have hpl : pairList 1 1 = [(0, 0)] := by decide
    rw [hpl, scanPairs, pIb2, hbrk, hib1, if_neg (by norm_num), scanPairs]
    congr 1
  rw [hsel]
  rfl

/-- C6 (amended): under the window-overlap precondition, for inputs where
every `(k, spin)` pair has at least one band with energy `≥ emin`: whenever
`select_bands` returns normally, every pair's returned range `[ib1, ib2]`
consists of bands lying in the energy window, and if some pair has zero
bands inside `[emin, emax]` then `select_bands` fails with an
`EmptyWindowError` naming an offending k-point.  (Without the extra
hypothesis the claim is false: a pair all of whose bands lie below `emin`
can return normally with a band outside the window, see the
counterexample.) -/
theorem select_bands_empty_window
    (nk nband ns : ℕ) (e : ℕ → ℕ → ℕ → ℚ) (emin emax : ℚ)
    (hnk : 0 < nk) (hnb : 0 < nband) (hns : 0 < ns)
    (hover : ¬ (eigMax nk nband ns e < emin ∨ emax < eigMin nk nband ns e))
    (hs : ∀ ik, ik < nk → ∀ isp, isp < ns → ∀ i, i < nband → ∀ j, j < nband →
      i ≤ j → e ik i isp ≤ e ik j isp)
    (hex : ∀ ik, ik < nk → ∀ isp, isp < ns →
      ∃ j, j < nband ∧ emin ≤ e ik j isp) :
    (∀ out : SelOut,
      exceptToOption (select_bands nk nband ns e emin emax) = some out →
      ∀ ik, ik < nk → ∀ isp, isp < ns → ∀ j,
        (getWin out.ib_win ik isp).1 ≤ j → j ≤ (getWin out.ib_win ik isp).2 →
        emin ≤ e ik j isp ∧ e ik j isp ≤ emax) ∧
    ((∃ ik, ik < nk ∧ ∃ isp, isp < ns ∧ ∀ j, j < nband →
        ¬ (emin ≤ e ik j isp ∧ e ik j isp ≤ emax)) →
      ∃ ik', ik' < nk ∧
        select_bands nk nband ns e emin emax = .error (.emptyWindow ik') ∧
        ∃ isp', isp' < ns ∧ ∀ j, j < nband →
          ¬ (emin ≤ e ik' j isp' ∧ e ik' j isp' ≤ emax)) := by
  constructor
  · intro out hok ik hik isp hisp j hj1 hj2
    have hok' : select_bands nk nband ns e emin emax = .ok out := by
      cases hsel : select_bands nk nband ns e emin emax with
      | ok a => rw [hsel, exceptToOption] at hok; cases hok; rfl
      | error b => rw [hsel, exceptToOption] at hok; cases hok
    obtain ⟨-, hscan⟩ := select_bands_ok_elim hok'
    obtain ⟨-, -, -, s4, -⟩ := scanPairs_ok_spec hscan
      (fun p hp => mem_pairList.1 hp) (pairList_nodup ns nk)
      (winShape_replicate nk ns)
    have hwin := s4 (isp, ik) (mem_pairList.2 ⟨hisp, hik⟩)
    rw [hwin] at hj1 hj2
    have hnf := scanPairs_ok_noFail hscan (isp, ik)
      (mem_pairList.2 ⟨hisp, hik⟩)
    exact pair_window_mem hnb
      (fun i hi j' hj' hij => hs ik hik isp hisp i hi j' hj' hij)
      (hex ik hik isp hisp) hnf j hj1 hj2
  · rintro ⟨ik, hik, isp, hisp, hempty⟩
    have hfail : pFails nband e emin emax (isp, ik) :=
      (pair_fails_iff_empty hnb
        (fun i hi j hj hij => hs ik hik isp hisp i hi j hj hij)
        (hex ik hik isp hisp)).2 hempty
    cases hres : select_bands nk nband ns e emin emax with
    | ok out =>
      exfalso
      obtain ⟨-, hscan⟩ := select_bands_ok_elim hres
      exact scanPairs_ok_noFail hscan (isp, ik)
        (mem_pairList.2 ⟨hisp, hik⟩) hfail
    | error err =>
      rw [select_bands, if_neg hover] at hres
      obtain ⟨q, hq, hfq, herr⟩ := scanPairs_error_spec hres
      obtain ⟨hq1, hq2⟩ := mem_pairList.1 hq
      have hempty_q := (pair_fails_iff_empty hnb
        (fun i hi j hj hij => hs q.2 hq2 q.1 hq1 i hi j hj hij)
        (hex q.2 hq2 q.1 hq1)).1 hfq
      exact ⟨q.2, hq2, by rw [herr], q.1, hq1, hempty_q⟩

/-- Witness for C6 at the spectrum `[[-1, 0, 1]]` with window `(-0.5, 0.5)`. -/
theorem select_bands_empty_window_witness :
    (0 : ℕ) < 1 ∧ (0 : ℕ) < 3 ∧
    (¬ (eigMax 1 3 1 (fun _ ib _ => if ib = 0 then (-1 : ℚ) else if ib = 1 then 0 else 1) < mkRat (-1) 2 ∨
      mkRat 1 2 < eigMin 1 3 1 (fun _ ib _ => if ib = 0 then (-1 : ℚ) else if ib = 1 then 0 else 1))) ∧
    ((∀ out : SelOut,
      exceptToOption (select_bands 1 3 1
        (fun _ ib _ => if ib = 0 then (-1 : ℚ) else if ib = 1 then 0 else 1)
        (mkRat (-1) 2) (mkRat 1 2)) = some out →
      ∀ ik, ik < 1 → ∀ isp, isp < 1 → ∀ j,
        (getWin out.ib_win ik isp).1 ≤ j → j ≤ (getWin out.ib_win ik isp).2 →
        mkRat (-1) 2 ≤ (fun _ ib _ => if ib = 0 then (-1 : ℚ) else if ib = 1 then 0 else 1) ik j isp ∧
          (fun _ ib _ => if ib = 0 then (-1 : ℚ) else if ib = 1 then 0 else 1) ik j isp ≤ mkRat 1 2) ∧
    ((∃ ik, ik < 1 ∧ ∃ isp, isp < 1 ∧ ∀ j, j < 3 →
        ¬ (mkRat (-1) 2 ≤ (fun _ ib _ => if ib = 0 then (-1 : ℚ) else if ib = 1 then 0 else 1) ik j isp ∧
          (fun _ ib _ => if ib = 0 then (-1 : ℚ) else if ib = 1 then 0 else 1) ik j isp ≤ mkRat 1 2)) →
      ∃ ik', ik' < 1 ∧
        select_bands 1 3 1
          (fun _ ib _ => if ib = 0 then (-1 : ℚ) else if ib = 1 then 0 else 1)
          (mkRat (-1) 2) (mkRat 1 2) = .error (.emptyWindow ik') ∧
        ∃ isp', isp' < 1 ∧ ∀ j, j < 3 →
          ¬ (mkRat (-1) 2 ≤ (fun _ ib _ => if ib = 0 then (-1 : ℚ) else if ib = 1 then 0 else 1) ik' j isp' ∧
            (fun _ ib _ => if ib = 0 then (-1 : ℚ) else if ib = 1 then 0 else 1) ik' j isp' ≤ mkRat 1 2))) :=
  ⟨by decide, by decide, by decide,
    select_bands_empty_window 1 3 1
      (fun _ ib _ => if ib = 0 then (-1 : ℚ) else if ib = 1 then 0 else 1)
      (mkRat (-1) 2) (mkRat 1 2) (by decide) (by decide) (by decide)
      (by decide) (by decide) (by decide)⟩

/-- C6 (counterexample): eigenvalues `[[0], [10]]` (2 k-points, 1 band,
1 spin) with the overlapping window `(5, 20)`: the pair `(k = 0, spin 0)`
has zero bands inside `[5, 20]`, yet `select_bands` returns normally (no
`EmptyWindowError`), and its returned range `[0, 0]` contains the
out-of-window band 0; both directions of the claimed equivalence fail. -/
theorem select_bands_empty_window_counterexample :
    exceptToError (select_bands 2 1 1
      (fun ik _ _ => if ik = 0 then (0 : ℚ) else 10) 5 20) = none ∧
    exceptToOption (select_bands 2 1 1
      (fun ik _ _ => if ik = 0 then (0 : ℚ) else 10) 5 20) =
      some ⟨[[(0, 0)], [(0, 0)]], 0, 0⟩ ∧
    (∀ j, j < 1 →
      ¬ ((5 : ℚ) ≤ (fun ik _ _ => if ik = 0 then (0 : ℚ) else 10) 0 j 0 ∧
        (fun ik _ _ => if ik = 0 then (0 : ℚ) else 10) 0 j 0 ≤ 20)) := by
  decide

/-! ### Helper lemmas: list sums for nelect_window -/

theorem range'_map_sum (f : ℕ → ℚ) (a n : ℕ) :
    ((List.range' a n).map f).sum = ∑ i ∈ Finset.Ico a (a + n), f i := by
  induction n generalizing a with
  | zero => simp
  | succ k ih =>
    rw [List.range'_succ, List.map_cons, List.sum_cons, ih,
      show a + (k + 1) = a + 1 + k by omega,
      Finset.sum_eq_sum_Ico_succ_bot (show a < a + 1 + k by omega) f]

theorem occSlice_sum_Icc (f : ℕ → ℚ) (i1 i2 : ℕ) :
    (occSlice f i1 (i2 + 1)).sum = ∑ i ∈ Finset.Icc i1 i2, f i := by
  rw [occSlice, range'_map_sum]
  rcases le_or_lt i1 (i2 + 1) with h | h
  · have hi : i1 + (i2 + 1 - i1) = i2 + 1 := by omega
    rw [hi, Nat.Ico_succ_right]
  · have h0 : i2 + 1 - i1 = 0 := by omega
    rw [h0]
    have h1 : Finset.Ico i1 (i1 + 0) = ∅ := by simp
    have h2 : Finset.Icc i1 i2 = ∅ := Finset.Icc_eq_empty (by omega)
    rw [h1, h2]

theorem foldl_add_eq_sum {α : Type _} (g : α → ℚ) (l : List α) (b : ℚ) :
    l.foldl (fun acc p => acc + g p) b = b + (l.map g).sum := by
  induction l generalizing b with
  | nil => simp
  | cons y ys ih =>
    rw [List.foldl_cons, ih, List.map_cons, List.sum_cons]
    ring

theorem range_map_sum (h : ℕ → ℚ) (n : ℕ) :
    ((List.range n).map h).sum = ∑ i ∈ Finset.range n, h i := by
  induction n with
  | zero => simp
  | succ k ih => rw [List.range_succ, List.map_append, List.sum_append, ih,
      Finset.sum_range_succ]; simp

theorem pairList_map_sum (g : ℕ × ℕ → ℚ) (ns nk : ℕ) :
    ((pairList ns nk).map g).sum =
      ∑ isp ∈ Finset.range ns, ∑ ik ∈ Finset.range nk, g (isp, ik) := by
  induction ns with
  | zero => simp [pairList]
  | succ n ih =>
    have hsplit : pairList (n + 1) nk =
        pairList n nk ++ (List.range nk).map fun ik => (n, ik) := by
      rw [pairList, pairList, List.range_succ, List.flatMap_append]
      simp
    rw [hsplit, List.map_append, List.sum_append, ih, Finset.sum_range_succ]
    congr 1
    rw [List.map_map, ← range_map_sum]
    rfl

/-! ### Claim theorems: nelect_window -/

/-- C9 (amended): `nelect_window` returns the sum, over all `(spin, k)`
pairs, of the occupations at band indices `ib1 … ib2` of that pair's window,
weighted by the k-point weight and by the spin degeneracy factor (2 when
there is exactly one spin channel, 1 otherwise); consequently, on a
single-k-point, single-spin, fully occupied (occupation 1), unit-weight
system it returns exactly twice the number of bands inside the window
(2 × 3 = 6 for a three-band window), the factor 2 being the spin
degeneracy.  (The embedding is a pure function, so the "mutates nothing"
part of the claim is represented by purity itself.) -/
theorem nelect_window_formula (nk ns : ℕ) (ib_win : ℕ → ℕ → ℕ × ℕ)
    (ferw : ℕ → ℕ → ℕ → ℚ) (kweights : ℕ → ℚ) :
    nelect_window nk ns ib_win ferw kweights =
      ∑ isp ∈ Finset.range ns, ∑ ik ∈ Finset.range nk,
        (∑ ib ∈ Finset.Icc (ib_win ik isp).1 (ib_win ik isp).2,
          ferw isp ik ib) * kweights ik * (if ns = 1 then 2 else 1) ∧
    nelect_window 1 1 (fun _ _ => (0, 2)) (fun _ _ _ => 1) (fun _ => 1) =
      2 * 3 := by
  have hgen : ∀ (nk' ns' : ℕ) (w : ℕ → ℕ → ℕ × ℕ) (f : ℕ → ℕ → ℕ → ℚ)
      (kw : ℕ → ℚ), nelect_window nk' ns' w f kw =
        ∑ isp ∈ Finset.range ns', ∑ ik ∈ Finset.range nk',
          (∑ ib ∈ Finset.Icc (w ik isp).1 (w ik isp).2, f isp ik ib) *
            kw ik * (if ns' = 1 then 2 else 1) := by
    intro nk' ns' w f kw
    simp only [nelect_window]
    rw [foldl_add_eq_sum, zero_add, pairList_map_sum]
    refine Finset.sum_congr rfl fun isp _ => Finset.sum_congr rfl fun ik _ => ?_
    rw [occSlice_sum_Icc]
  refine ⟨hgen nk ns ib_win ferw kweights, ?_⟩
  rw [hgen]
  simp [Finset.sum_range_one, Finset.sum_const, Nat.card_Icc]
  norm_num

/-- C9 (counterexample): the claim's trivial scenario — one k-point, one
spin channel, every occupation 1, unit k-weight, and the three-band window
`[0, 2]` — returns 6, not the band count 3: the single spin channel
contributes the degeneracy factor `rspin = 2.0`. -/
theorem nelect_window_counterexample :
    nelect_window 1 1 (fun _ _ => (0, 2)) (fun _ _ _ => 1) (fun _ => 1) = 6 ∧
    (6 : ℚ) ≠ 3 := by
  constructor
  · simp only [nelect_window]
    rw [foldl_add_eq_sum, zero_add, pairList_map_sum]
    simp [Finset.sum_range_one, occSlice_sum_Icc, Finset.sum_const,
      Nat.card_Icc]
    norm_num
  · norm_num

/-! ### Helper lemmas: block matrix maps -/

theorem nlmSum_nil (shells : List Shell) : nlmSum shells [] = 0 := rfl

theorem nlmSum_cons (shells : List Shell) (p : ℕ × ℕ) (ps : List (ℕ × ℕ)) :
    nlmSum shells (p :: ps) = (shellAt shells p.1).nlm + nlmSum shells ps := by
  rw [nlmSum, List.map_cons, List.sum_cons, nlmSum]

theorem nlmSum_append (shells : List Shell) (l1 l2 : List (ℕ × ℕ)) :
    nlmSum shells (l1 ++ l2) = nlmSum shells l1 + nlmSum shells l2 := by
  rw [nlmSum, List.map_append, List.sum_append, nlmSum, nlmSum]

theorem nlmSum_shell_sites (shells : List Shell) (ish : ℕ) (ions : List ℕ) :
    nlmSum shells (ions.map fun ion => (ish, ion)) =
      ions.length * (shellAt shells ish).nlm := by
  induction ions with
  | nil => simp [nlmSum]
  | cons a l ih =>
    rw [List.map_cons, nlmSum_cons, ih, List.length_cons]
    ring

theorem mkBlocks_append (shells : List Shell) (l1 l2 : List (ℕ × ℕ))
    (off : ℕ) :
    mkBlocks shells (l1 ++ l2) off =
      mkBlocks shells l1 off ++ mkBlocks shells l2 (off + nlmSum shells l1) := by
  induction l1 generalizing off with
  | nil => simp [mkBlocks, nlmSum]
  | cons p rest ih =>
    rw [List.cons_append, mkBlocks, mkBlocks, ih, nlmSum_cons, List.cons_append]
    have : off + (shellAt shells p.1).nlm + nlmSum shells rest =
        off + ((shellAt shells p.1).nlm + nlmSum shells rest) := by omega
    rw [this]

theorem mkBlocks_shell_ion (shells : List Shell) (ps : List (ℕ × ℕ))
    (off : ℕ) : (mkBlocks shells ps off).map Block.shell_ion = ps := by
  induction ps generalizing off with
  | nil => simp [mkBlocks]
  | cons p rest ih => simp [mkBlocks, ih]

theorem mkBlocks_length (shells : List Shell) (ps : List (ℕ × ℕ)) (off : ℕ) :
    (mkBlocks shells ps off).length = ps.length := by
  induction ps generalizing off with
  | nil => rfl
  | cons p rest ih => simp [mkBlocks, ih]

theorem mkBlocks_mem_width (shells : List Shell) {ps : List (ℕ × ℕ)}
    {off : ℕ} {b : Block} (hb : b ∈ mkBlocks shells ps off) :
    b.bmat_range.2 = b.bmat_range.1 + (shellAt shells b.shell_ion.1).nlm ∧
    off ≤ b.bmat_range.1 ∧ b.bmat_range.2 ≤ off + nlmSum shells ps := by
  induction ps generalizing off with
  | nil => simp [mkBlocks] at hb
  | cons p rest ih =>
    rw [mkBlocks] at hb
    rw [nlmSum_cons]
    rcases List.mem_cons.1 hb with rfl | hb'
    · refine ⟨rfl, le_refl _, ?_⟩
      show off + (shellAt shells p.1).nlm ≤
        off + ((shellAt shells p.1).nlm + nlmSum shells rest)
      omega
    · obtain ⟨h1, h2, h3⟩ := ih hb'
      exact ⟨h1, by omega, by omega⟩

theorem mkBlocks_getD (shells : List Shell) (ps : List (ℕ × ℕ)) (off i : ℕ)
    (h : i < ps.length) :
    (mkBlocks shells ps off).getD i dBlock =
      ⟨(off + nlmSum shells (ps.take i), off + nlmSum shells (ps.take (i + 1))),
        ps.getD i (0, 0)⟩ := by
  induction ps generalizing off i with
  | nil => simp at h
  | cons p rest ih =>
    cases i with
    | zero =>
      simp [mkBlocks, nlmSum_cons, nlmSum_nil]
    | succ i' =>
      rw [mkBlocks, List.getD_cons_succ, ih (off + (shellAt shells p.1).nlm) i'
        (by simpa using h), List.take_succ_cons, List.take_succ_cons,
        nlmSum_cons, nlmSum_cons, List.getD_cons_succ]
      have h1 : off + (shellAt shells p.1).nlm + nlmSum shells (rest.take i') =
          off + ((shellAt shells p.1).nlm + nlmSum shells (rest.take i')) := by
        omega
      have h2 : off + (shellAt shells p.1).nlm +
          nlmSum shells (rest.take (i' + 1)) =
          off + ((shellAt shells p.1).nlm +
            nlmSum shells (rest.take (i' + 1))) := by omega
      rw [h1, h2]

theorem sum_take_mono (l : List ℕ) {a b : ℕ} (h : a ≤ b) :
    (l.take a).sum ≤ (l.take b).sum := by
  conv_rhs => rw [← List.take_append_drop a (l.take b)]
  rw [List.sum_append, List.take_take, min_eq_left h]
  exact Nat.le_add_right _ _

theorem nlmSum_take_mono (shells : List Shell) (ps : List (ℕ × ℕ))
    {a b : ℕ} (h : a ≤ b) :
    nlmSum shells (ps.take a) ≤ nlmSum shells (ps.take b) := by
  rw [nlmSum, nlmSum, List.map_take, List.map_take]
  exact sum_take_mono _ h

theorem mkBlocks_width_sum (shells : List Shell) (ps : List (ℕ × ℕ))
    (off : ℕ) :
    ((mkBlocks shells ps off).map
      (fun b => b.bmat_range.2 - b.bmat_range.1)).sum = nlmSum shells ps := by
  induction ps generalizing off with
  | nil => simp [mkBlocks, nlmSum]
  | cons p rest ih =>
    rw [mkBlocks, List.map_cons, List.sum_cons, ih, nlmSum_cons]
    simp

theorem inner_fold_eq (shells : List Shell) (ish : ℕ) (ions : List ℕ)
    (bs : List Block) (off : ℕ) :
    ions.foldl (fun acc2 ion =>
        (acc2.1 ++ [⟨(acc2.2, acc2.2 + (shellAt shells ish).nlm), (ish, ion)⟩],
          acc2.2 + (shellAt shells ish).nlm)) (bs, off) =
      (bs ++ mkBlocks shells (ions.map fun ion => (ish, ion)) off,
        off + ions.length * (shellAt shells ish).nlm) := by
  induction ions generalizing bs off with
  | nil => simp [mkBlocks]
  | cons ion rest ih =>
    rw [List.foldl_cons, ih, List.map_cons, mkBlocks, ← List.append_cons]
    simp only [Prod.mk.injEq, List.length_cons]
    refine ⟨by trivial, by ring⟩

theorem shellPairs_cons (shells : List Shell) (ish : ℕ) (rest : List ℕ) :
    shellPairs shells (ish :: rest) =
      ((List.range (shellAt shells ish).nion).map fun ion => (ish, ion)) ++
        shellPairs shells rest := by
  rw [shellPairs, List.flatMap_cons, shellPairs]

theorem group_fold_eq (shells : List Shell) (ishells : List ℕ)
    (bs : List Block) (off : ℕ) :
    ishells.foldl (fun acc ish =>
        (List.range (shellAt shells ish).nion).foldl
          (fun acc2 ion =>
            (acc2.1 ++ [⟨(acc2.2, acc2.2 + (shellAt shells ish).nlm),
                (ish, ion)⟩],
              acc2.2 + (shellAt shells ish).nlm)) acc) (bs, off) =
      (bs ++ mkBlocks shells (shellPairs shells ishells) off,
        off + nlmSum shells (shellPairs shells ishells)) := by
  induction ishells generalizing bs off with
  | nil => simp [shellPairs, mkBlocks, nlmSum]
  | cons ish rest ih =>
    rw [List.foldl_cons, inner_fold_eq, ih, shellPairs_cons, mkBlocks_append,
      nlmSum_append, nlmSum_shell_sites, ← List.append_assoc]
    simp only [Prod.mk.injEq, List.length_range]
    refine ⟨by trivial, by omega⟩

theorem gbm_false (shells : List Shell) (ishells : List ℕ) :
    get_block_matrix_map shells ishells false =
      ([mkBlocks shells (shellPairs shells ishells) 0],
        nlmSum shells (shellPairs shells ishells)) := by
  simp only [get_block_matrix_map, Bool.false_eq_true, if_false,
    group_fold_eq, List.nil_append, Nat.zero_add]

theorem normion_fold_eq (shells : List Shell) (ishells : List ℕ)
    (bs : List (List Block)) (m : ℕ) :
    ishells.foldl (fun acc ish =>
        (acc.1 ++ (List.range (shellAt shells ish).nion).map fun ion =>
            [⟨(0, (shellAt shells ish).nlm), (ish, ion)⟩],
          max acc.2 (shellAt shells ish).nlm)) (bs, m) =
      (bs ++ (shellPairs shells ishells).map fun p =>
          [⟨(0, (shellAt shells p.1).nlm), p⟩],
        ishells.foldl (fun a ish => max a (shellAt shells ish).nlm) m) := by
  induction ishells generalizing bs m with
  | nil => simp [shellPairs]
  | cons ish rest ih =>
    rw [List.foldl_cons, ih, List.foldl_cons, shellPairs_cons,
      List.map_append, ← List.append_assoc]
    simp only [Prod.mk.injEq, List.map_map]
    refine ⟨by trivial, by trivial⟩

theorem gbm_true (shells : List Shell) (ishells : List ℕ) :
    get_block_matrix_map shells ishells true =
      ((shellPairs shells ishells).map fun p =>
          [⟨(0, (shellAt shells p.1).nlm), p⟩],
        ishells.foldl (fun a ish => max a (shellAt shells ish).nlm) 0) := by
  simp only [get_block_matrix_map, if_true, normion_fold_eq, List.nil_append]

theorem mem_shellPairs {shells : List Shell} {ishells : List ℕ}
    {p : ℕ × ℕ} :
    p ∈ shellPairs shells ishells ↔
      p.1 ∈ ishells ∧ p.2 < (shellAt shells p.1).nion := by
  obtain ⟨a, b⟩ := p
  simp only [shellPairs, List.mem_flatMap, List.mem_map, List.mem_range]
  constructor
  · rintro ⟨ish, h1, ion, h2, heq⟩
    cases heq
    exact ⟨h1, h2⟩
  · rintro ⟨h1, h2⟩
    exact ⟨a, h1, b, h2, rfl⟩

/-! ### Claim theorems: get_block_matrix_map -/

/-- C7 (confirmed): with `normion = false`, `get_block_matrix_map` returns
exactly one block map holding one descriptor per participating
`(shell, site)` pair in shell order then site order, whose row ranges start
at 0, are contiguous (each begins where the previous ends), pairwise
disjoint, of width equal to the owning shell's `nlm`, and whose total width
equals the returned `ndim`, the sum of `nlm` over all pairs.  The
non-emptiness hypothesis marks the only corner where the python code
differs (it raises a `NameError` when a group has no pair at all). -/
theorem block_map_group_wide_layout (shells : List Shell) (ishells : List ℕ)
    (hne : shellPairs shells ishells ≠ []) :
    (get_block_matrix_map shells ishells false).1.length = 1 ∧
    ((get_block_matrix_map shells ishells false).1.headD []).map
      Block.shell_ion = shellPairs shells ishells ∧
    ((((get_block_matrix_map shells ishells false).1.headD []).getD 0
      dBlock).bmat_range).1 = 0 ∧
    (∀ i, i + 1 < ((get_block_matrix_map shells ishells false).1.headD
        []).length →
      ((((get_block_matrix_map shells ishells false).1.headD []).getD (i + 1)
        dBlock).bmat_range).1 =
      ((((get_block_matrix_map shells ishells false).1.headD []).getD i
        dBlock).bmat_range).2) ∧
    (∀ b ∈ (get_block_matrix_map shells ishells false).1.headD [],
      b.bmat_range.2 = b.bmat_range.1 +
        (shellAt shells b.shell_ion.1).nlm) ∧
    (∀ i j, i < j →
      j < ((get_block_matrix_map shells ishells false).1.headD []).length →
      ((((get_block_matrix_map shells ishells false).1.headD []).getD i
        dBlock).bmat_range).2 ≤
      ((((get_block_matrix_map shells ishells false).1.headD []).getD j
        dBlock).bmat_range).1) ∧
    (((get_block_matrix_map shells ishells false).1.headD []).map
      (fun b => b.bmat_range.2 - b.bmat_range.1)).sum =
      (get_block_matrix_map shells ishells false).2 ∧
    (get_block_matrix_map shells ishells false).2 =
      nlmSum shells (shellPairs shells ishells) := by
  rw [gbm_false]
  simp only [List.headD_cons, List.length_cons, List.length_nil]
  have hlen : 0 < (shellPairs shells ishells).length := List.length_pos.2 hne
  refine ⟨by trivial, mkBlocks_shell_ion _ _ _, ?_, ?_, ?_, ?_, ?_,
    by trivial⟩
  · rw [mkBlocks_getD _ _ _ 0 hlen]
    simp [nlmSum_nil]
  · intro i hi
    rw [mkBlocks_length] at hi
    rw [mkBlocks_getD _ _ _ (i + 1) hi, mkBlocks_getD _ _ _ i (by omega)]
  · intro b hb
    exact (mkBlocks_mem_width shells hb).1
  · intro i j hij hj
    rw [mkBlocks_length] at hj
    rw [mkBlocks_getD _ _ _ i (by omega), mkBlocks_getD _ _ _ j hj]
    simp only [Nat.zero_add]
    exact nlmSum_take_mono shells _ (by omega)
  · exact mkBlocks_width_sum _ _ _

/-- Witness for C7: two shells (2 sites with 3 orbitals, 1 site with
2 orbitals) combined group-wide. -/
theorem block_map_group_wide_layout_witness :
    shellPairs [⟨2, 3⟩, ⟨1, 2⟩] [0, 1] ≠ [] ∧
    ((get_block_matrix_map [⟨2, 3⟩, ⟨1, 2⟩] [0, 1] false).1.length = 1 ∧
    ((get_block_matrix_map [⟨2, 3⟩, ⟨1, 2⟩] [0, 1] false).1.headD []).map
      Block.shell_ion = shellPairs [⟨2, 3⟩, ⟨1, 2⟩] [0, 1] ∧
    ((((get_block_matrix_map [⟨2, 3⟩, ⟨1, 2⟩] [0, 1] false).1.headD
      []).getD 0 dBlock).bmat_range).1 = 0 ∧
    (∀ i, i + 1 < ((get_block_matrix_map [⟨2, 3⟩, ⟨1, 2⟩] [0, 1]
        false).1.headD []).length →
      ((((get_block_matrix_map [⟨2, 3⟩, ⟨1, 2⟩] [0, 1] false).1.headD
        []).getD (i + 1) dBlock).bmat_range).1 =
      ((((get_block_matrix_map [⟨2, 3⟩, ⟨1, 2⟩] [0, 1] false).1.headD
        []).getD i dBlock).bmat_range).2) ∧
    (∀ b ∈ (get_block_matrix_map [⟨2, 3⟩, ⟨1, 2⟩] [0, 1] false).1.headD [],
      b.bmat_range.2 = b.bmat_range.1 +
        (shellAt [⟨2, 3⟩, ⟨1, 2⟩] b.shell_ion.1).nlm) ∧
    (∀ i j, i < j →
      j < ((get_block_matrix_map [⟨2, 3⟩, ⟨1, 2⟩] [0, 1] false).1.headD
        []).length →
      ((((get_block_matrix_map [⟨2, 3⟩, ⟨1, 2⟩] [0, 1] false).1.headD
        []).getD i dBlock).bmat_range).2 ≤
      ((((get_block_matrix_map [⟨2, 3⟩, ⟨1, 2⟩] [0, 1] false).1.headD
        []).getD j dBlock).bmat_range).1) ∧
    (((get_block_matrix_map [⟨2, 3⟩, ⟨1, 2⟩] [0, 1] false).1.headD []).map
      (fun b => b.bmat_range.2 - b.bmat_range.1)).sum =
      (get_block_matrix_map [⟨2, 3⟩, ⟨1, 2⟩] [0, 1] false).2 ∧
    (get_block_matrix_map [⟨2, 3⟩, ⟨1, 2⟩] [0, 1] false).2 =
      nlmSum [⟨2, 3⟩, ⟨1, 2⟩] (shellPairs [⟨2, 3⟩, ⟨1, 2⟩] [0, 1])) :=
  ⟨by decide, block_map_group_wide_layout [⟨2, 3⟩, ⟨1, 2⟩] [0, 1]
    (by decide)⟩

/-- C8 (confirmed): with `normion = true`, `get_block_matrix_map` returns
one block map per participating `(shell, site)` pair (in shell then site
order), each a single descriptor spanning rows `[0, nlm)` of its shell, and
`ndim` is the maximum `nlm` over the participating shells (attained, and an
upper bound). -/
theorem block_map_per_site_layout (shells : List Shell) (ishells : List ℕ)
    (hne : ishells ≠ []) :
    (get_block_matrix_map shells ishells true).1 =
      (shellPairs shells ishells).map (fun p =>
        [⟨(0, (shellAt shells p.1).nlm), p⟩]) ∧
    (∀ ish ∈ ishells, (shellAt shells ish).nlm ≤
      (get_block_matrix_map shells ishells true).2) ∧
    ∃ ish ∈ ishells, (get_block_matrix_map shells ishells true).2 =
      (shellAt shells ish).nlm := by
  rw [gbm_true]
  refine ⟨rfl, ?_, ?_⟩
  · intro ish hish
    exact le_foldl_max (fun q => (shellAt shells q).nlm) hish 0
  · rcases foldl_max_cases (fun q => (shellAt shells q).nlm) ishells 0 with
      h | ⟨q, hq, h⟩
    · obtain ⟨ish, hish⟩ := List.exists_mem_of_ne_nil ishells hne
      have hle := le_foldl_max (fun q => (shellAt shells q).nlm) hish 0
      exact ⟨ish, hish, by omega⟩
    · exact ⟨q, hq, h⟩

/-- Witness for C8: the same two shells, orthogonalized per site. -/
theorem block_map_per_site_layout_witness :
    ([0, 1] : List ℕ) ≠ [] ∧
    ((get_block_matrix_map [⟨2, 3⟩, ⟨1, 2⟩] [0, 1] true).1 =
      (shellPairs [⟨2, 3⟩, ⟨1, 2⟩] [0, 1]).map (fun p =>
        [⟨(0, (shellAt [⟨2, 3⟩, ⟨1, 2⟩] p.1).nlm), p⟩]) ∧
    (∀ ish ∈ ([0, 1] : List ℕ), (shellAt [⟨2, 3⟩, ⟨1, 2⟩] ish).nlm ≤
      (get_block_matrix_map [⟨2, 3⟩, ⟨1, 2⟩] [0, 1] true).2) ∧
    ∃ ish ∈ ([0, 1] : List ℕ),
      (get_block_matrix_map [⟨2, 3⟩, ⟨1, 2⟩] [0, 1] true).2 =
        (shellAt [⟨2, 3⟩, ⟨1, 2⟩] ish).nlm) :=
  ⟨by decide, block_map_per_site_layout [⟨2, 3⟩, ⟨1, 2⟩] [0, 1] (by decide)⟩

/-! ### Claim theorems: the gather/scatter slices of orthogonalize -/

/-- Every block of every map produced by `get_block_matrix_map` has row
range of width exactly its shell's `nlm`, lying inside `[0, ndim)`. -/
theorem block_mem_spec (shells : List Shell) (ishells : List ℕ)
    (normion : Bool) {m : List Block}
    (hm : m ∈ (get_block_matrix_map shells ishells normion).1)
    {b : Block} (hb : b ∈ m) :
    b.bmat_range.2 = b.bmat_range.1 + (shellAt shells b.shell_ion.1).nlm ∧
    b.bmat_range.2 ≤ (get_block_matrix_map shells ishells normion).2 := by
  cases normion with
  | false =>
    rw [gbm_false] at hm ⊢
    simp only [List.mem_singleton] at hm
    subst hm
    obtain ⟨h1, -, h3⟩ := mkBlocks_mem_width shells hb
    exact ⟨h1, by simpa using h3⟩
  | true =>
    rw [gbm_true] at hm ⊢
    obtain ⟨p, hp, rfl⟩ := List.mem_map.1 hm
    simp only [List.mem_singleton] at hb
    subst hb
    refine ⟨?_, le_foldl_max (fun q => (shellAt shells q).nlm)
      (mem_shellPairs.1 hp).1 0⟩
    show (shellAt shells p.1).nlm = 0 + (shellAt shells p.1).nlm
    omega

/-- C10 (confirmed): for every block descriptor `(i1, i2)` produced by
`get_block_matrix_map` (either mode), even though the loop computes
`nlm = i2 - i1 + 1`, the shell's orbital axis has length exactly `i2 - i1`,
so the numpy slice `[:nlm]` clips to `i2 - i1` rows: the gather step writes
exactly the scratch rows `i1 … i2 - 1` (inside the `ndim`-row scratch
matrix) from in-bounds shell rows, the scatter step writes exactly the
shell's `nlm` orbital rows from `p_orth` rows `i1 … i2 - 1`, and the source
and destination of each copy have equal row counts. -/
theorem gather_scatter_rows_exact (shells : List Shell) (ishells : List ℕ)
    (normion : Bool) (m : List Block)
    (hm : m ∈ (get_block_matrix_map shells ishells normion).1)
    (b : Block) (hb : b ∈ m) :
    sliceLen (b.bmat_range.2 - b.bmat_range.1 + 1)
        (shellAt shells b.shell_ion.1).nlm =
      b.bmat_range.2 - b.bmat_range.1 ∧
    sliceLen (b.bmat_range.2 - b.bmat_range.1 + 1)
        (shellAt shells b.shell_ion.1).nlm =
      (shellAt shells b.shell_ion.1).nlm ∧
    b.bmat_range.2 ≤ (get_block_matrix_map shells ishells normion).2 ∧
    (∀ pm proj : ℕ → ℕ → ℂ, ∀ nb r c : ℕ,
      b.bmat_range.1 ≤ r → r < b.bmat_range.2 → c < nb →
      gatherBlock pm proj b.bmat_range.1 b.bmat_range.2 nb r c =
        proj (r - b.bmat_range.1) c ∧
      r - b.bmat_range.1 < (shellAt shells b.shell_ion.1).nlm) ∧
    (∀ pm proj : ℕ → ℕ → ℂ, ∀ nb r c : ℕ,
      ¬ (b.bmat_range.1 ≤ r ∧ r < b.bmat_range.2 ∧ c < nb) →
      gatherBlock pm proj b.bmat_range.1 b.bmat_range.2 nb r c = pm r c) ∧
    (∀ proj porth : ℕ → ℕ → ℂ, ∀ nb r c : ℕ,
      r < sliceLen (b.bmat_range.2 - b.bmat_range.1 + 1)
        (shellAt shells b.shell_ion.1).nlm → c < nb →
      scatterBlock proj porth
        (sliceLen (b.bmat_range.2 - b.bmat_range.1 + 1)
          (shellAt shells b.shell_ion.1).nlm) nb b.bmat_range.1 r c =
        porth (b.bmat_range.1 + r) c ∧
      b.bmat_range.1 + r < b.bmat_range.2) ∧
    (∀ proj porth : ℕ → ℕ → ℂ, ∀ nb r c : ℕ,
      ¬ (r < sliceLen (b.bmat_range.2 - b.bmat_range.1 + 1)
        (shellAt shells b.shell_ion.1).nlm ∧ c < nb) →
      scatterBlock proj porth
        (sliceLen (b.bmat_range.2 - b.bmat_range.1 + 1)
          (shellAt shells b.shell_ion.1).nlm) nb b.bmat_range.1 r c =
        proj r c) := by
  obtain ⟨hw, hdim⟩ := block_mem_spec shells ishells normion hm hb
  have hslice : sliceLen (b.bmat_range.2 - b.bmat_range.1 + 1)
      (shellAt shells b.shell_ion.1).nlm =
      b.bmat_range.2 - b.bmat_range.1 := by
    rw [sliceLen]
    omega
  refine ⟨hslice, by rw [hslice]; omega, hdim, ?_, ?_, ?_, ?_⟩
  · intro pm proj nb r c h1 h2 h3
    constructor
    · rw [gatherBlock, if_pos ⟨h1, h2, h3⟩]
    · omega
  · intro pm proj nb r c h
    rw [gatherBlock, if_neg h]
  · intro proj porth nb r c h1 h2
    rw [hslice] at h1
    constructor
    · rw [scatterBlock, if_pos ⟨by rw [hslice]; omega, h2⟩]
    · omega
  · intro proj porth nb r c h
    rw [scatterBlock, if_neg h]

/-- Witness for C10: one shell of one site with two orbitals, group-wide
mode; its single block is `((0, 2), (0, 0))`. -/
theorem gather_scatter_rows_exact_witness :
    ([⟨(0, 2), (0, 0)⟩] : List Block) ∈
      (get_block_matrix_map [⟨1, 2⟩] [0] false).1 ∧
    (⟨(0, 2), (0, 0)⟩ : Block) ∈ ([⟨(0, 2), (0, 0)⟩] : List Block) ∧
    (sliceLen ((⟨(0, 2), (0, 0)⟩ : Block).bmat_range.2 -
        (⟨(0, 2), (0, 0)⟩ : Block).bmat_range.1 + 1)
        (shellAt [⟨1, 2⟩] (⟨(0, 2), (0, 0)⟩ : Block).shell_ion.1).nlm =
      (⟨(0, 2), (0, 0)⟩ : Block).bmat_range.2 -
        (⟨(0, 2), (0, 0)⟩ : Block).bmat_range.1 ∧
    sliceLen ((⟨(0, 2), (0, 0)⟩ : Block).bmat_range.2 -
        (⟨(0, 2), (0, 0)⟩ : Block).bmat_range.1 + 1)
        (shellAt [⟨1, 2⟩] (⟨(0, 2), (0, 0)⟩ : Block).shell_ion.1).nlm =
      (shellAt [⟨1, 2⟩] (⟨(0, 2), (0, 0)⟩ : Block).shell_ion.1).nlm ∧
    (⟨(0, 2), (0, 0)⟩ : Block).bmat_range.2 ≤
      (get_block_matrix_map [⟨1, 2⟩] [0] false).2 ∧
    (∀ pm proj : ℕ → ℕ → ℂ, ∀ nb r c : ℕ,
      (⟨(0, 2), (0, 0)⟩ : Block).bmat_range.1 ≤ r →
      r < (⟨(0, 2), (0, 0)⟩ : Block).bmat_range.2 → c < nb →
      gatherBlock pm proj (⟨(0, 2), (0, 0)⟩ : Block).bmat_range.1
          (⟨(0, 2), (0, 0)⟩ : Block).bmat_range.2 nb r c =
        proj (r - (⟨(0, 2), (0, 0)⟩ : Block).bmat_range.1) c ∧
      r - (⟨(0, 2), (0, 0)⟩ : Block).bmat_range.1 <
        (shellAt [⟨1, 2⟩] (⟨(0, 2), (0, 0)⟩ : Block).shell_ion.1).nlm) ∧
    (∀ pm proj : ℕ → ℕ → ℂ, ∀ nb r c : ℕ,
      ¬ ((⟨(0, 2), (0, 0)⟩ : Block).bmat_range.1 ≤ r ∧
        r < (⟨(0, 2), (0, 0)⟩ : Block).bmat_range.2 ∧ c < nb) →
      gatherBlock pm proj (⟨(0, 2), (0, 0)⟩ : Block).bmat_range.1
        (⟨(0, 2), (0, 0)⟩ : Block).bmat_range.2 nb r c = pm r c) ∧
    (∀ proj porth : ℕ → ℕ → ℂ, ∀ nb r c : ℕ,
      r < sliceLen ((⟨(0, 2), (0, 0)⟩ : Block).bmat_range.2 -
        (⟨(0, 2), (0, 0)⟩ : Block).bmat_range.1 + 1)
        (shellAt [⟨1, 2⟩] (⟨(0, 2), (0, 0)⟩ : Block).shell_ion.1).nlm →
      c < nb →
      scatterBlock proj porth
        (sliceLen ((⟨(0, 2), (0, 0)⟩ : Block).bmat_range.2 -
          (⟨(0, 2), (0, 0)⟩ : Block).bmat_range.1 + 1)
          (shellAt [⟨1, 2⟩] (⟨(0, 2), (0, 0)⟩ : Block).shell_ion.1).nlm)
        nb (⟨(0, 2), (0, 0)⟩ : Block).bmat_range.1 r c =
        porth ((⟨(0, 2), (0, 0)⟩ : Block).bmat_range.1 + r) c ∧
      (⟨(0, 2), (0, 0)⟩ : Block).bmat_range.1 + r <
        (⟨(0, 2), (0, 0)⟩ : Block).bmat_range.2) ∧
    (∀ proj porth : ℕ → ℕ → ℂ, ∀ nb r c : ℕ,
      ¬ (r < sliceLen ((⟨(0, 2), (0, 0)⟩ : Block).bmat_range.2 -
        (⟨(0, 2), (0, 0)⟩ : Block).bmat_range.1 + 1)
        (shellAt [⟨1, 2⟩] (⟨(0, 2), (0, 0)⟩ : Block).shell_ion.1).nlm ∧
        c < nb) →
      scatterBlock proj porth
        (sliceLen ((⟨(0, 2), (0, 0)⟩ : Block).bmat_range.2 -
          (⟨(0, 2), (0, 0)⟩ : Block).bmat_range.1 + 1)
          (shellAt [⟨1, 2⟩] (⟨(0, 2), (0, 0)⟩ : Block).shell_ion.1).nlm)
        nb (⟨(0, 2), (0, 0)⟩ : Block).bmat_range.1 r c = proj r c)) :=
  ⟨by decide, by decide,
    gather_scatter_rows_exact [⟨1, 2⟩] [0] false [⟨(0, 2), (0, 0)⟩]
      (by decide) ⟨(0, 2), (0, 0)⟩ (by decide)⟩

/-! ### Claim theorems: orthogonalize_projector_matrix -/

/-- C1 (confirmed): for every complex `Nm × Nb` matrix `P` whose overlap
`O = P·Pᴴ` has the Hermitian eigendecomposition `O = V·diag(eig)·Vᴴ`
returned by the eigensolver (`V` unitary, `eig` real) with all eigenvalues
strictly positive, `orthogonalize_projector_matrix` returns exactly the
triple `(V·diag(1/sqrt(eig))·Vᴴ·P, P·Pᴴ, eig)` — the Löwdin symmetric
orthogonalization — and the eigenvalues are returned with no
regularization applied. -/
theorem orthogonalize_projector_matrix_spec {m n : ℕ}
    (P : Matrix (Fin m) (Fin n) ℂ) (V : Matrix (Fin m) (Fin m) ℂ)
    (eig : Fin m → ℝ)
    (hdecomp : P * Pᴴ = V * realDiag eig * Vᴴ)
    (hV1 : Vᴴ * V = 1) (hV2 : V * Vᴴ = 1)
    (hpos : ∀ i, 0 < eig i) :
    orthogonalize_projector_matrix P V eig =
      .ok (V * Matrix.diagonal (fun i => (Real.sqrt (eig i) : ℂ)⁻¹) * Vᴴ * P,
        P * Pᴴ, eig) := by
  rw [orthogonalize_projector_matrix, if_pos hpos]
  rfl

/-- Witness for C1: the 1 × 1 identity projector, whose overlap is `1` with
eigendecomposition `V = 1`, `eig = 1`. -/
theorem orthogonalize_projector_matrix_spec_witness :
    ((1 : Matrix (Fin 1) (Fin 1) ℂ) * (1 : Matrix (Fin 1) (Fin 1) ℂ)ᴴ =
      (1 : Matrix (Fin 1) (Fin 1) ℂ) * realDiag (fun _ => (1 : ℝ)) *
        (1 : Matrix (Fin 1) (Fin 1) ℂ)ᴴ) ∧
    ((1 : Matrix (Fin 1) (Fin 1) ℂ)ᴴ * 1 = 1) ∧
    ((1 : Matrix (Fin 1) (Fin 1) ℂ) * (1 : Matrix (Fin 1) (Fin 1) ℂ)ᴴ = 1) ∧
    (∀ i : Fin 1, 0 < (fun _ => (1 : ℝ)) i) ∧
    orthogonalize_projector_matrix (1 : Matrix (Fin 1) (Fin 1) ℂ)
        (1 : Matrix (Fin 1) (Fin 1) ℂ) (fun _ => (1 : ℝ)) =
      .ok ((1 : Matrix (Fin 1) (Fin 1) ℂ) *
          Matrix.diagonal (fun i : Fin 1 => (Real.sqrt ((fun _ => (1:ℝ)) i) : ℂ)⁻¹) *
          (1 : Matrix (Fin 1) (Fin 1) ℂ)ᴴ * 1,
        (1 : Matrix (Fin 1) (Fin 1) ℂ) * (1 : Matrix (Fin 1) (Fin 1) ℂ)ᴴ,
        fun _ => (1 : ℝ)) :=
  ⟨by simp [realDiag], by simp, by simp, fun _ => one_pos,
    orthogonalize_projector_matrix_spec 1 1 (fun _ => (1 : ℝ))
      (by simp [realDiag]) (by simp) (by simp) (fun _ => one_pos)⟩

/-- C2 (confirmed): for `Nm ≤ Nb` and a positive-definite overlap (all
eigenvalues of the eigensolver output strictly positive), the orthogonalized
matrix returned by `orthogonalize_projector_matrix` satisfies
`P_ortho · P_orthoᴴ = 1` exactly. -/
theorem p_ortho_unitary_rows {m n : ℕ}
    (P : Matrix (Fin m) (Fin n) ℂ) (V : Matrix (Fin m) (Fin m) ℂ)
    (eig : Fin m → ℝ) (hmn : m ≤ n)
    (hdecomp : P * Pᴴ = V * realDiag eig * Vᴴ)
    (hV1 : Vᴴ * V = 1) (hV2 : V * Vᴴ = 1)
    (hpos : ∀ i, 0 < eig i) :
    ∀ Q O E, orthogonalize_projector_matrix P V eig = .ok (Q, O, E) →
      Q * Qᴴ = 1 := by
  intro Q O E hres
  rw [orthogonalize_projector_matrix, if_pos hpos] at hres
  simp only [Except.ok.injEq, Prod.mk.injEq] at hres
  obtain ⟨hQ, -, -⟩ := hres
  subst hQ
  have hstar : (invSqrtDiag eig)ᴴ = invSqrtDiag eig := by
    rw [invSqrtDiag, Matrix.diagonal_conjTranspose]
    have h : (star fun i => (Real.sqrt (eig i) : ℂ)⁻¹) =
        fun i => (Real.sqrt (eig i) : ℂ)⁻¹ := by
      funext i
      simp [Pi.star_apply]
    rw [h]
  have hcan : ∀ {k : ℕ} (X : Matrix (Fin m) (Fin k) ℂ),
      Vᴴ * (V * X) = X := by
    intro k X
    rw [← Matrix.mul_assoc, hV1, Matrix.one_mul]
  have hdiag : invSqrtDiag eig * realDiag eig * invSqrtDiag eig = 1 := by
    rw [invSqrtDiag, realDiag, Matrix.diagonal_mul_diagonal,
      Matrix.diagonal_mul_diagonal]
    have h : (fun i => (Real.sqrt (eig i) : ℂ)⁻¹ * ((eig i : ℝ) : ℂ) *
        (Real.sqrt (eig i) : ℂ)⁻¹) = fun _ : Fin m => (1 : ℂ) := by
      funext i
      have h0 : (0 : ℝ) < eig i := hpos i
      have hs : Real.sqrt (eig i) ≠ 0 := ne_of_gt (Real.sqrt_pos.2 h0)
      have hsC : (Real.sqrt (eig i) : ℂ) ≠ 0 := Complex.ofReal_ne_zero.2 hs
      have hl : (eig i : ℂ) =
          (Real.sqrt (eig i) : ℂ) * (Real.sqrt (eig i) : ℂ) := by
        rw [← Complex.ofReal_mul, Real.mul_self_sqrt (le_of_lt h0)]
      rw [hl]
      field_simp
    rw [h, Matrix.diagonal_one]
  have hSh : (shalf V eig)ᴴ = V * (invSqrtDiag eig * Vᴴ) := by
    rw [shalf, Matrix.conjTranspose_mul, Matrix.conjTranspose_mul,
      Matrix.conjTranspose_conjTranspose, hstar]
  rw [Matrix.conjTranspose_mul, hSh, shalf]
  simp only [Matrix.mul_assoc]
  rw [← Matrix.mul_assoc P Pᴴ, hdecomp]
  simp only [Matrix.mul_assoc]
  rw [hcan, hcan]
  rw [show invSqrtDiag eig * (realDiag eig * (invSqrtDiag eig * Vᴴ)) =
    invSqrtDiag eig * realDiag eig * invSqrtDiag eig * Vᴴ from by
      simp only [Matrix.mul_assoc]]
  rw [hdiag, Matrix.one_mul, hV2]

/-- Witness for C2: the 1 × 1 identity projector. -/
theorem p_ortho_unitary_rows_witness :
    (1 : ℕ) ≤ 1 ∧
    ((1 : Matrix (Fin 1) (Fin 1) ℂ) * (1 : Matrix (Fin 1) (Fin 1) ℂ)ᴴ =
      (1 : Matrix (Fin 1) (Fin 1) ℂ) * realDiag (fun _ => (1 : ℝ)) *
        (1 : Matrix (Fin 1) (Fin 1) ℂ)ᴴ) ∧
    (∀ i : Fin 1, 0 < (fun _ => (1 : ℝ)) i) ∧
    (∀ Q O E, orthogonalize_projector_matrix (1 : Matrix (Fin 1) (Fin 1) ℂ)
        (1 : Matrix (Fin 1) (Fin 1) ℂ) (fun _ => (1 : ℝ)) = .ok (Q, O, E) →
      Q * Qᴴ = 1) :=
  ⟨le_refl 1, by simp [realDiag], fun _ => one_pos,
    p_ortho_unitary_rows 1 1 (fun _ => (1 : ℝ)) (le_refl 1)
      (by simp [realDiag]) (by simp) (by simp) (fun _ => one_pos)⟩

/-- C3 (confirmed): under the eigensolver hypotheses,
`orthogonalize_projector_matrix` fails with the ill-conditioned-projector
error if and only if the overlap matrix `P·Pᴴ` has a zero or negative
eigenvalue among the `eig i`; when all are strictly positive it returns
without error.  The `eig i` are moreover genuine eigenvalues of the
overlap: each column of `V` is a nonzero eigenvector of `P·Pᴴ` with
eigenvalue `eig i`. -/
theorem orthogonalize_illconditioned_iff {m n : ℕ}
    (P : Matrix (Fin m) (Fin n) ℂ) (V : Matrix (Fin m) (Fin m) ℂ)
    (eig : Fin m → ℝ)
    (hdecomp : P * Pᴴ = V * realDiag eig * Vᴴ)
    (hV1 : Vᴴ * V = 1) (hV2 : V * Vᴴ = 1) :
    (orthogonalize_projector_matrix P V eig = .error .illConditioned ↔
      ∃ i, eig i ≤ 0) ∧
    ((∀ i, 0 < eig i) →
      orthogonalize_projector_matrix P V eig =
        .ok (shalf V eig * P, overlap P, eig)) ∧
    (∀ i, (overlap P).mulVec (fun j => V j i) =
      fun j => (eig i : ℂ) * V j i) ∧
    (∀ i, (fun j => V j i) ≠ (0 : Fin m → ℂ)) := by
  have hOV : overlap P * V = V * realDiag eig := by
    rw [overlap, hdecomp, Matrix.mul_assoc, hV1, Matrix.mul_one]
  refine ⟨?_, ?_, ?_, ?_⟩
  · constructor
    · intro h
      by_contra hc
      push_neg at hc
      rw [orthogonalize_projector_matrix, if_pos hc] at h
      cases h
    · intro ⟨i, hi⟩
      rw [orthogonalize_projector_matrix,
        if_neg fun hall => absurd (hall i) (not_lt.2 hi)]
  · intro hpos
    rw [orthogonalize_projector_matrix, if_pos hpos]
  · intro i
    funext j
    have h : (overlap P * V) j i = (V * realDiag eig) j i := by rw [hOV]
    rw [Matrix.mul_apply] at h
    rw [realDiag, Matrix.mul_diagonal] at h
    simpa [Matrix.mulVec, dotProduct, mul_comm] using h
  · intro i hc
    have h1 : (Vᴴ * V) i i = 1 := by rw [hV1, Matrix.one_apply_eq]
    rw [Matrix.mul_apply] at h1
    have h0 : ∀ j, V j i = 0 := fun j => congrFun hc j
    simp [Matrix.conjTranspose_apply, h0] at h1

/-- Witness for C3: the 1 × 1 identity projector with overlap eigenvalue 1. -/
theorem orthogonalize_illconditioned_iff_witness :
    ((1 : Matrix (Fin 1) (Fin 1) ℂ) * (1 : Matrix (Fin 1) (Fin 1) ℂ)ᴴ =
      (1 : Matrix (Fin 1) (Fin 1) ℂ) * realDiag (fun _ => (1 : ℝ)) *
        (1 : Matrix (Fin 1) (Fin 1) ℂ)ᴴ) ∧
    ((orthogonalize_projector_matrix (1 : Matrix (Fin 1) (Fin 1) ℂ)
        (1 : Matrix (Fin 1) (Fin 1) ℂ) (fun _ => (1 : ℝ)) =
          .error .illConditioned ↔
      ∃ i : Fin 1, (fun _ => (1 : ℝ)) i ≤ 0) ∧
    ((∀ i : Fin 1, 0 < (fun _ => (1 : ℝ)) i) →
      orthogonalize_projector_matrix (1 : Matrix (Fin 1) (Fin 1) ℂ)
          (1 : Matrix (Fin 1) (Fin 1) ℂ) (fun _ => (1 : ℝ)) =
        .ok (shalf (1 : Matrix (Fin 1) (Fin 1) ℂ) (fun _ => (1 : ℝ)) * 1,
          overlap (1 : Matrix (Fin 1) (Fin 1) ℂ), fun _ => (1 : ℝ))) ∧
    (∀ i : Fin 1, (overlap (1 : Matrix (Fin 1) (Fin 1) ℂ)).mulVec
        (fun j => (1 : Matrix (Fin 1) (Fin 1) ℂ) j i) =
      fun j => (((fun _ => (1 : ℝ)) i : ℝ) : ℂ) *
        (1 : Matrix (Fin 1) (Fin 1) ℂ) j i) ∧
    (∀ i : Fin 1, (fun j => (1 : Matrix (Fin 1) (Fin 1) ℂ) j i) ≠
      (0 : Fin 1 → ℂ))) :=
  ⟨by simp [realDiag],
    orthogonalize_illconditioned_iff 1 1 (fun _ => (1 : ℝ))
      (by simp [realDiag]) (by simp) (by simp)⟩

end ProjGroup
